import Mathlib

/-!
# Ant Colony Optimization for the Travelling Salesman Problem

A shallow embedding of the optimisation engine of `script.js` (the functions
`distance`, `initACO`, `selectNextCity`, `updatePheromones` and `runACO`),
followed by theorems about it.

## Modelling conventions

* JavaScript numbers are modelled in exact arithmetic.  Quantities that the
  program only ever builds from finite values by addition (coordinates,
  distances, `ant.dist`) are rationals.  Quantities that may receive the result
  of a division (`pheromone`, the selection scores) are values of `JsNum`: a
  rational, `+Infinity`, `-Infinity` or `NaN`, combined by the IEEE rules for
  the special values.  `bestDist` is a rational or `Infinity` (`⊤`).
* `Math.hypot` is a parameter `hypot : ℚ → ℚ → ℚ` of the model.  `hypotQ` is an
  executable instance, exact whenever the result is rational.
* `Math.random()` reads the head of an explicit stream of draws.
* Canvas drawing and `requestAnimationFrame` are not part of the state.
* Array reads outside the bounds, which give `undefined` or throw in
  JavaScript, return a default value.  They do not occur as long as every path
  entry is below the number of cities and the matrix is `n × n`.  Reading
  `ants[currentAntIndex]` outside the bounds makes the invocation return no
  result, and so does a `while` loop that never ends.
-/

namespace ACO

/-! ## Numbers -/

/-- A JavaScript number in exact arithmetic: a finite value or one of the
three IEEE special values. -/
inductive JsNum where
  | fin (q : ℚ)
  | pinf
  | ninf
  | nan
deriving DecidableEq, Repr

namespace JsNum

/-- IEEE addition on exact values. -/
def add : JsNum → JsNum → JsNum
  | fin a, fin b => fin (a + b)
  | fin _, pinf => pinf
  | fin _, ninf => ninf
  | pinf, fin _ => pinf
  | pinf, pinf => pinf
  | ninf, fin _ => ninf
  | ninf, ninf => ninf
  | pinf, ninf => nan
  | ninf, pinf => nan
  | nan, _ => nan
  | _, nan => nan

/-- IEEE negation. -/
def neg : JsNum → JsNum
  | fin a => fin (-a)
  | pinf => ninf
  | ninf => pinf
  | nan => nan

/-- IEEE subtraction. -/
def sub (a b : JsNum) : JsNum := add a (neg b)

/-- The infinity with the sign of `q`, and `NaN` for `q = 0`
(`0 * Infinity` is `NaN`). -/
def signedInf (q : ℚ) : JsNum :=
  if 0 < q then pinf else if q < 0 then ninf else nan

/-- IEEE multiplication on exact values. -/
def mul : JsNum → JsNum → JsNum
  | fin a, fin b => fin (a * b)
  | fin a, pinf => signedInf a
  | fin a, ninf => signedInf (-a)
  | pinf, fin b => signedInf b
  | ninf, fin b => signedInf (-b)
  | pinf, pinf => pinf
  | ninf, ninf => pinf
  | pinf, ninf => ninf
  | ninf, pinf => ninf
  | nan, _ => nan
  | _, nan => nan

/-- IEEE division on exact values; a zero divisor is the positive zero. -/
def div : JsNum → JsNum → JsNum
  | fin a, fin b => if b = 0 then signedInf a else fin (a / b)
  | fin _, pinf => fin 0
  | fin _, ninf => fin 0
  | pinf, fin b => if 0 ≤ b then pinf else ninf
  | ninf, fin b => if 0 ≤ b then ninf else pinf
  | pinf, pinf => nan
  | pinf, ninf => nan
  | ninf, pinf => nan
  | ninf, ninf => nan
  | nan, _ => nan
  | _, nan => nan

/-- The function `Math.pow(x, k)` for a natural exponent `k`. -/
def pow (x : JsNum) : ℕ → JsNum
  | 0 => fin 1
  | 1 => x
  | k + 2 => mul (pow x (k + 1)) x

/-- The comparison `a <= b`; false when either side is `NaN`. -/
def le : JsNum → JsNum → Bool
  | fin a, fin b => decide (a ≤ b)
  | nan, _ => false
  | _, nan => false
  | ninf, _ => true
  | _, pinf => true
  | _, _ => false

/-- The test `a === 0`. -/
def isZero (a : JsNum) : Bool := decide (a = fin 0)

/-- A finite number. -/
def Finite : JsNum → Prop
  | fin _ => True
  | _ => False

/-- A finite number or `+Infinity`: neither `NaN` nor `-Infinity`. -/
def FiniteOrInf : JsNum → Prop
  | fin _ => True
  | pinf => True
  | _ => False

/-- A finite, non-negative number. -/
def FiniteNonneg : JsNum → Prop
  | fin q => 0 ≤ q
  | _ => False

instance : Zero JsNum := ⟨fin 0⟩

instance : Add JsNum := ⟨add⟩

end JsNum

/-- Addition of `JsNum` is a commutative monoid with zero `fin 0`, so that a
sum of deposits does not depend on the order in which they are made. -/
instance : AddCommMonoid JsNum where
  add_assoc := by
    intro a b c
    show JsNum.add (JsNum.add a b) c = JsNum.add a (JsNum.add b c)
    cases a <;> cases b <;> cases c <;> simp [JsNum.add, add_assoc]
  zero_add := by
    intro a
    show JsNum.add (JsNum.fin 0) a = a
    cases a <;> simp [JsNum.add]
  add_zero := by
    intro a
    show JsNum.add a (JsNum.fin 0) = a
    cases a <;> simp [JsNum.add]
  add_comm := by
    intro a b
    show JsNum.add a b = JsNum.add b a
    cases a <;> cases b <;> simp [JsNum.add, add_comm]
  nsmul := nsmulRec

/-! ## Constants -/

/-- Pheromone influence. -/
def ALPHA : ℕ := 1

/-- Distance influence. -/
def BETA : ℕ := 5

/-- Pheromone evaporation rate, `0.3`. -/
def RHO : ℚ := 3 / 10

/-- Pheromone deposit constant. -/
def Q : ℚ := 100

/-- Loop iterations budget of one frame. -/
def MAX_STEPS_PER_FRAME : ℕ := 2

/-- The guard `1e-9` added to a distance before it is inverted. -/
def EPS : ℚ := 1 / 1000000000

/-! ## State -/

/-- A city: a point of the canvas. -/
structure City where
  x : ℚ
  y : ℚ
deriving DecidableEq, Repr

/-- An ant: the object `{ path, visited, dist }`. -/
structure Ant where
  path : List ℕ
  visited : List Bool
  dist : ℚ
deriving DecidableEq, Repr

/-- The global variables of the script. -/
structure State where
  cities : List City
  ants : List Ant
  pheromone : List (List JsNum)
  bestPath : List ℕ
  bestDist : WithTop ℚ
  running : Bool
  currentAntIndex : ℕ
  SHOW_ALL_ANT_PATHS : Bool

/-- The stream of values returned by successive calls of `Math.random()`. -/
abbrev Draws := ℕ → ℚ

/-- The stream after one call of `Math.random()`. -/
def Draws.rest (rnd : Draws) : Draws := fun k => rnd (k + 1)

/-- The values of the script's globals when the page is loaded. -/
def pageLoad : State where
  cities := []
  ants := []
  pheromone := []
  bestPath := []
  bestDist := ⊤
  running := false
  currentAntIndex := 0
  SHOW_ALL_ANT_PATHS := true

/-- An executable `Math.hypot`: exact whenever `x² + y²` is the square of a
rational. -/
def hypotQ (x y : ℚ) : ℚ := Rat.sqrt (x * x + y * y)

/-! ## Array access -/

/-- The read `cities[i]`. -/
def cityAt (cities : List City) (i : ℕ) : City := cities.getD i ⟨0, 0⟩

/-- The read `pheromone[i][j]`. -/
def entry (tau : List (List JsNum)) (i j : ℕ) : JsNum := (tau.getD i []).getD j JsNum.nan

/-- The write `pheromone[i][j] = v`. -/
def setEntry (tau : List (List JsNum)) (i j : ℕ) (v : JsNum) : List (List JsNum) :=
  tau.set i ((tau.getD i []).set j v)

/-- The read `ant.visited[j]` as a truth value (`undefined` is falsy). -/
def isVisited (visited : List Bool) (j : ℕ) : Bool := visited.getD j false

/-- The write `ant.visited[j] = true`, which lengthens a shorter array. -/
def markVisited (visited : List Bool) (j : ℕ) : List Bool :=
  if j < visited.length then visited.set j true
  else visited ++ List.replicate (j - visited.length) false ++ [true]

/-! ## Core helper functions -/

section Model

variable (hypot : ℚ → ℚ → ℚ)

/-- The function `distance(a, b)`. -/
def distance (a b : City) : ℚ := hypot (a.x - b.x) (a.y - b.y)

/-- The function `initACO()`. -/
def initACO (s : State) : State :=
  let n := s.cities.length
  { s with
    pheromone := List.replicate n (List.replicate n (JsNum.div (JsNum.fin 1) (JsNum.fin ((n : ℚ) * n))))
    ants := List.replicate (max 20 (n * 20)) ⟨[], [], 0⟩
    currentAntIndex := 0
    SHOW_ALL_ANT_PATHS := true }

/-! ## ACO algorithm logic -/

/-- The value stored in `probs[j]` by the first loop of `selectNextCity`. -/
def score (s : State) (ant : Ant) (i j : ℕ) : JsNum :=
  if isVisited ant.visited j then JsNum.fin 0
  else
    let tau := JsNum.pow (entry s.pheromone i j) ALPHA
    let eta := JsNum.pow
      (JsNum.div (JsNum.fin 1) (JsNum.fin (distance hypot (cityAt s.cities i) (cityAt s.cities j) + EPS))) BETA
    JsNum.mul tau eta

/-- The array `probs` after the first loop of `selectNextCity`. -/
def probs (s : State) (ant : Ant) (i : ℕ) : List JsNum :=
  (List.range s.cities.length).map (score hypot s ant i)

/-- The variable `sum` after the first loop of `selectNextCity`: the scores of
the unvisited cities, added in index order. -/
def scoreSum (s : State) (ant : Ant) (i : ℕ) : JsNum :=
  (List.range s.cities.length).foldl
    (fun acc j => if isVisited ant.visited j then acc else JsNum.add acc (score hypot s ant i j))
    (JsNum.fin 0)

/-- The roulette wheel loop of `selectNextCity`: scans `probs` from index `j`
with remainder `r`. -/
def roulette : List JsNum → ℕ → JsNum → Option ℕ
  | [], _, _ => none
  | p :: ps, j, r =>
    let r1 := JsNum.sub r p
    if JsNum.le r1 (JsNum.fin 0) then some j else roulette ps (j + 1) r1

/-- The function `selectNextCity(ant, i)`; `none` is `null`.  A draw is
consumed only when the sum of the scores is not zero. -/
def selectNextCity (s : State) (ant : Ant) (i : ℕ) (rnd : Draws) : Option ℕ × Draws :=
  let sum := scoreSum hypot s ant i
  if JsNum.isZero sum then (none, rnd)
  else
    let r := JsNum.mul (JsNum.fin (rnd 0)) sum
    (roulette (probs hypot s ant i) 0 r, rnd.rest)

/-- The evaporation loops of `updatePheromones`. -/
def evaporate (n : ℕ) (tau : List (List JsNum)) : List (List JsNum) :=
  tau.enum.map fun ir =>
    ir.2.enum.map fun jp =>
      if ir.1 < n ∧ jp.1 < n then JsNum.mul (JsNum.fin (1 - RHO)) jp.2 else jp.2

/-- The statements `pheromone[i][j] += delta; pheromone[j][i] += delta`. -/
def depositEdge (delta : JsNum) (tau : List (List JsNum)) (i j : ℕ) : List (List JsNum) :=
  let tau1 := setEntry tau i j (JsNum.add (entry tau i j) delta)
  setEntry tau1 j i (JsNum.add (entry tau1 j i) delta)

/-- The deposit of one ant in `updatePheromones`: the loop over `k`. -/
def depositAnt (n : ℕ) (tau : List (List JsNum)) (ant : Ant) : List (List JsNum) :=
  let delta := JsNum.div (JsNum.fin Q) (JsNum.fin ant.dist)
  (List.range ant.path.length).foldl
    (fun t k => depositEdge delta t (ant.path.getD k 0) (ant.path.getD ((k + 1) % n) 0)) tau

/-- The function `updatePheromones()`. -/
def updatePheromones (s : State) : State :=
  let n := s.cities.length
  { s with
    pheromone := s.ants.foldl (depositAnt n) (evaporate n s.pheromone)
    ants := s.ants.map fun _ => ⟨[], [], 0⟩ }

/-! ## Main simulation loop -/

/-- Part 1 of the loop body of `runACO`: an ant with an empty path gets a
random start city. -/
def initAnt (n : ℕ) (ant : Ant) (rnd : Draws) : Ant × Draws :=
  if ant.path.length = 0 then
    let start := ((rnd 0) * n).floor.toNat
    (⟨[start], markVisited (List.replicate n false) start, 0⟩, rnd.rest)
  else (ant, rnd)

/-- Part 2 of the loop body of `runACO`: the ant takes one step.  Returns the
ant, the new value of `stepsTaken` and the remaining draws. -/
def takeStep (B steps : ℕ) (s : State) (ant : Ant) (rnd : Draws) : Ant × ℕ × Draws :=
  if ant.path.length < s.cities.length then
    let i := ant.path.getD (ant.path.length - 1) 0
    match selectNextCity hypot s ant i rnd with
    | (some next, rnd1) =>
      (⟨ant.path ++ [next], markVisited ant.visited next,
        ant.dist + distance hypot (cityAt s.cities i) (cityAt s.cities next)⟩, steps + 1, rnd1)
    | (none, rnd1) => (ant, B, rnd1)
  else (ant, steps, rnd)

/-- The final length of a complete tour: `tourDist` in part 3 of the loop body. -/
def tourDist (s : State) (ant : Ant) : ℚ :=
  ant.dist + distance hypot (cityAt s.cities (ant.path.getD (s.cities.length - 1) 0))
    (cityAt s.cities (ant.path.getD 0 0))

/-- Part 3 of the loop body of `runACO`: a complete tour is closed, compared
with the best tour and the cursor moves on.  The ant is stored back at index
`idx`. -/
def completeTour (steps : ℕ) (s : State) (idx : ℕ) (ant : Ant) : State × ℕ :=
  if ant.path.length = s.cities.length then
    let done : Ant := ⟨ant.path, ant.visited, tourDist hypot s ant⟩
    let better : Bool := decide ((done.dist : WithTop ℚ) < s.bestDist)
    ({ s with
       ants := s.ants.set idx done
       bestDist := if better then (done.dist : WithTop ℚ) else s.bestDist
       bestPath := if better then done.path else s.bestPath
       currentAntIndex := s.currentAntIndex + 1 }, steps + 1)
  else ({ s with ants := s.ants.set idx ant }, steps)

/-- Part 4 of the loop body of `runACO`: when the cursor has passed the last
ant the cycle ends. -/
def endCycle (B steps : ℕ) (s : State) : State × ℕ :=
  if s.ants.length ≤ s.currentAntIndex then
    let s1 := updatePheromones s
    ({ s1 with
       currentAntIndex := 0
       SHOW_ALL_ANT_PATHS := if 0 < s1.bestPath.length then false else s1.SHOW_ALL_ANT_PATHS }, B)
  else (s, steps)

/-- Parts 1 and 2 of the loop body of `runACO` on the ant `ant0`: the ant
after them, the new value of `stepsTaken` and the remaining draws. -/
def steppedAnt (B steps : ℕ) (s : State) (ant0 : Ant) (rnd : Draws) : Ant × ℕ × Draws :=
  let (ant1, rnd1) := initAnt s.cities.length ant0 rnd
  takeStep hypot B steps s ant1 rnd1

/-- Parts 1 to 3 of the loop body of `runACO`, on the ant under the cursor.
No result when `ants[currentAntIndex]` is undefined. -/
def advanceAnt (B steps : ℕ) (s : State) (rnd : Draws) : Option (State × ℕ × Draws) :=
  match s.ants.get? s.currentAntIndex with
  | none => none
  | some ant0 =>
    let (ant2, steps2, rnd2) := steppedAnt hypot B steps s ant0 rnd
    let (s3, steps3) := completeTour hypot steps2 s s.currentAntIndex ant2
    some (s3, steps3, rnd2)

/-- One execution of the body of the `while` loop of `runACO`, with budget `B`
and `stepsTaken = steps`: parts 1 to 3, then part 4. -/
def iteration (B steps : ℕ) (s : State) (rnd : Draws) : Option (State × ℕ × Draws) :=
  match advanceAnt hypot B steps s rnd with
  | none => none
  | some (s3, steps3, rnd2) =>
    let (s4, steps4) := endCycle B steps3 s3
    some (s4, steps4, rnd2)

/-- The loop `while (stepsTaken < B)` of `runACO`, run for at most `fuel`
iterations.  No result when the fuel runs out or an iteration has none. -/
def runLoop (B : ℕ) : ℕ → ℕ → State → Draws → Option (State × Draws)
  | fuel, steps, s, rnd =>
    if steps < B then
      match fuel with
      | 0 => none
      | fuel1 + 1 =>
        match iteration hypot B steps s rnd with
        | none => none
        | some (s1, steps1, rnd1) => runLoop B fuel1 steps1 s1 rnd1
    else some (s, rnd)

/-- The function `runACO()` with `MAX_STEPS_PER_FRAME = B`.  An iteration that
leaves `stepsTaken` unchanged is repeated for ever by the script, so `B`
iterations are enough whenever the loop ends: no result stands for an
invocation that throws or does not return. -/
def runACO (B : ℕ) (s : State) (rnd : Draws) : Option (State × Draws) :=
  if s.running then runLoop hypot B B 0 s rnd else some (s, rnd)

/-- The handler of the start button, up to the first frame: `initACO()` and
`running = true` when there are at least two cities. -/
def startClick (s : State) : State :=
  if s.cities.length < 2 then s else { initACO s with running := true }

/-- All draws lie in `[0, 1)`, as `Math.random()` guarantees. -/
def ValidDraws (rnd : Draws) : Prop := ∀ k, 0 ≤ rnd k ∧ rnd k < 1

/-- The states reachable from `initACO` on at least two cities by invocations
of `runACO`, with any budget and any draws in `[0, 1)`. -/
inductive Reachable : State → Prop
  | init (s0 : State) (h : 2 ≤ s0.cities.length) : Reachable (startClick s0)
  | frame (s s1 : State) (B : ℕ) (rnd rnd1 : Draws) (hs : Reachable s)
      (hr : ValidDraws rnd) (hrun : runACO hypot B s rnd = some (s1, rnd1)) : Reachable s1

/-- The state `s1` is reached from `s` by a sequence of invocations of
`runACO`, with any budgets and any draws. -/
inductive RunsTo : State → State → Prop
  | refl (s : State) : RunsTo s s
  | frame (s s1 s2 : State) (B : ℕ) (rnd rnd2 : Draws) (h : RunsTo s s1)
      (hrun : runACO hypot B s1 rnd = some (s2, rnd2)) : RunsTo s s2

/-- The cursor is on an ant and no path is longer than the number of cities:
the states in which every loop iteration of `runACO` makes progress. -/
def Ready (s : State) : Prop :=
  1 ≤ s.cities.length ∧ s.currentAntIndex < s.ants.length ∧
    ∀ ant ∈ s.ants, ant.path.length ≤ s.cities.length

/-- The state after `k` invocations of `runACO` with budget `B`, each reading
the draws `rnd`. -/
def frames (B : ℕ) (rnd : Draws) : ℕ → State → Option State
  | 0, s => some s
  | k + 1, s =>
    match runACO hypot B s rnd with
    | none => none
    | some (s1, _) => frames B rnd k s1

/-! ## Example inputs -/

/-- Two cities at distance 5. -/
def twoCities : List City := [⟨0, 0⟩, ⟨3, 4⟩]

/-- Two cities at the same point. -/
def coincidentCities : List City := [⟨0, 0⟩, ⟨0, 0⟩]

/-- The draws that are all `0`. -/
def zeroDraws : Draws := fun _ => 0

/-- The draws that are all `1/2`. -/
def halfDraws : Draws := fun _ => 1 / 2

/-- The state after the start button is pressed on `twoCities`. -/
def startTwo : State := startClick { pageLoad with cities := twoCities }

/-- A state in which two ants have completed a tour of `twoCities`. -/
def twoTours : State where
  cities := twoCities
  ants := [⟨[0, 1], [true, true], 10⟩, ⟨[1, 0], [true, true], 10⟩]
  pheromone := [[JsNum.fin (1 / 4), JsNum.fin (1 / 4)], [JsNum.fin (1 / 4), JsNum.fin (1 / 4)]]
  bestPath := [0, 1]
  bestDist := ((10 : ℚ) : WithTop ℚ)
  running := true
  currentAntIndex := 2
  SHOW_ALL_ANT_PATHS := true

/-- A state in which the cursor is on the last of two ants and the first ant
has completed a tour of `twoCities`. -/
def lastAnt : State where
  cities := twoCities
  ants := [⟨[0, 1], [true, true], 10⟩, ⟨[], [], 0⟩]
  pheromone := [[JsNum.fin (1 / 4), JsNum.fin (1 / 4)], [JsNum.fin (1 / 4), JsNum.fin (1 / 4)]]
  bestPath := [0, 1]
  bestDist := ((10 : ℚ) : WithTop ℚ)
  running := true
  currentAntIndex := 1
  SHOW_ALL_ANT_PATHS := true

/-- A state in which ant 0 is touring from city 0 and every pheromone entry
is 0, so that every selection score is 0. -/
def stalled : State where
  cities := twoCities
  ants := [⟨[0], [true, false], 0⟩, ⟨[], [], 0⟩]
  pheromone := [[JsNum.fin 0, JsNum.fin 0], [JsNum.fin 0, JsNum.fin 0]]
  bestPath := []
  bestDist := ⊤
  running := true
  currentAntIndex := 0
  SHOW_ALL_ANT_PATHS := true

/-- Three cities at distances 3, 4 and 5. -/
def threeCities : List City := [⟨0, 0⟩, ⟨3, 0⟩, ⟨3, 4⟩]

/-- The draws `0, 0, 1/2, 0, 0, 1/2, ...`. -/
def repeatDraws : Draws := fun k => if k % 3 = 2 then 1 / 2 else 0

/-- The state after the start button is pressed on `threeCities`. -/
def startThree : State := startClick { pageLoad with cities := threeCities }

/-- The state in which `updatePheromones` is called at the end of the first
cycle on `threeCities` when every ant has read the draws `0, 0, 1/2`: each of
the 60 ants holds the path `[0, 0, 1]`, of length `n = 3`, and the length 6. -/
def repeatTours : State where
  cities := threeCities
  ants := List.replicate 60 ⟨[0, 0, 1], [true, true, false], 6⟩
  pheromone := List.replicate 3 (List.replicate 3 (JsNum.fin (1 / 9)))
  bestPath := [0, 0, 1]
  bestDist := ((6 : ℚ) : WithTop ℚ)
  running := true
  currentAntIndex := 60
  SHOW_ALL_ANT_PATHS := true

/-! ## Vocabulary of the specification -/

/-- The matrix has `n` rows of `n` entries. -/
def Square (n : ℕ) (tau : List (List JsNum)) : Prop :=
  tau.length = n ∧ ∀ row ∈ tau, row.length = n

/-- The matrix is symmetric: `τ[i][j] = τ[j][i]`. -/
def Symmetric (tau : List (List JsNum)) : Prop :=
  ∀ i j, entry tau i j = entry tau j i

/-- The entries with both indices below `n` are finite or `+Infinity`. -/
def NoNaN (n : ℕ) (tau : List (List JsNum)) : Prop :=
  ∀ i j, i < n → j < n → JsNum.FiniteOrInf (entry tau i j)

/-- The three properties of the pheromone matrix kept by every deposit. -/
def GoodMatrix (n : ℕ) (tau : List (List JsNum)) : Prop :=
  Square n tau ∧ Symmetric tau ∧ NoNaN n tau

/-- A complete tour of `n` cities: every city index exactly once. -/
def CompleteTour (n : ℕ) (path : List ℕ) : Prop :=
  path.length = n ∧ path.Nodup ∧ ∀ c ∈ path, c < n

/-- The edge leaving position `k` of a tour of `n` cities; the last position
is joined to the first. -/
def edgeAt (n : ℕ) (path : List ℕ) (k : ℕ) : ℕ × ℕ :=
  (path.getD k 0, path.getD ((k + 1) % n) 0)

/-- What position `k` of an ant's tour contributes to `τ[i][j]`: `Q / dist`
when its edge is `(i, j)` or `(j, i)`. -/
def edgeDeposit (n : ℕ) (ant : Ant) (i j k : ℕ) : JsNum :=
  if edgeAt n ant.path k = (i, j) ∨ edgeAt n ant.path k = (j, i) then
    JsNum.div (JsNum.fin Q) (JsNum.fin ant.dist)
  else 0

/-- The sum of the deposits on `τ[i][j]` over every ant and every position
of its tour. -/
def totalDeposit (n : ℕ) (ants : List Ant) (i j : ℕ) : JsNum :=
  (ants.map fun ant => ((List.range n).map (edgeDeposit n ant i j)).sum).sum

/-- What position `k` of an ant's tour adds to `τ[i][j]`: `Q / dist` when its
edge is `(i, j)`, and `Q / dist` when its edge is `(j, i)`; both when the edge
is `(i, i)`. -/
def edgeDepositBoth (n : ℕ) (ant : Ant) (i j k : ℕ) : JsNum :=
  (if edgeAt n ant.path k = (i, j) then JsNum.div (JsNum.fin Q) (JsNum.fin ant.dist) else 0)
    + (if edgeAt n ant.path k = (j, i) then JsNum.div (JsNum.fin Q) (JsNum.fin ant.dist) else 0)

/-- The sum of what every position of every ant's tour adds to `τ[i][j]`,
each direction of an edge counted on its own. -/
def totalDepositBoth (n : ℕ) (ants : List Ant) (i j : ℕ) : JsNum :=
  (ants.map fun ant => ((List.range n).map (edgeDepositBoth n ant i j)).sum).sum

/-- No edge of the tour joins a city to itself. -/
def NoRepeat (n : ℕ) (path : List ℕ) : Prop :=
  ∀ k, k < n → (edgeAt n path k).1 ≠ (edgeAt n path k).2

/-- The sum of `distance(cities[path[k]], cities[path[k+1]])` for `k < m`. -/
def pathSum (cities : List City) (path : List ℕ) (m : ℕ) : ℚ :=
  ((List.range m).map fun k =>
    distance hypot (cityAt cities (path.getD k 0)) (cityAt cities (path.getD (k + 1) 0))).sum

/-- The length accumulated by a touring ant: the sum of the distances along
its path, without the closing edge. -/
def OpenLength (cities : List City) (ant : Ant) : Prop :=
  ant.dist = pathSum hypot cities ant.path (ant.path.length - 1)

/-- The final length of a completed ant: the sum of the distances along its
path plus the closing edge from the last city to the first, once. -/
def ClosedLength (cities : List City) (ant : Ant) : Prop :=
  ant.dist = pathSum hypot cities ant.path (cities.length - 1)
    + distance hypot (cityAt cities (ant.path.getD (cities.length - 1) 0))
        (cityAt cities (ant.path.getD 0 0))

/-- The ants below the cursor hold a path of `n` cities and its closed length;
the others hold a shorter path and its open length. -/
def DistExact (s : State) : Prop :=
  ∀ idx ant, s.ants.get? idx = some ant →
    (idx < s.currentAntIndex →
      ant.path.length = s.cities.length ∧ ClosedLength hypot s.cities ant) ∧
    (s.currentAntIndex ≤ idx →
      ant.path.length < s.cities.length ∧ OpenLength hypot s.cities ant)

/-- The state and the remaining draws after `k` consecutive invocations of
`runACO` with budget `B`, each reading the draws left by the one before. -/
def invocations (B : ℕ) : ℕ → State → Draws → Option (State × Draws)
  | 0, s, rnd => some (s, rnd)
  | k + 1, s, rnd =>
    match runACO hypot B s rnd with
    | none => none
    | some (s1, rnd1) => invocations B k s1 rnd1

/-- The handler `startBtn.onclick` with `MAX_STEPS_PER_FRAME = B`: nothing
with fewer than two cities, otherwise `initACO()`, `running = true` and the
first call of `runACO()`. -/
def startBtn_onclick (B : ℕ) (s : State) (rnd : Draws) : Option (State × Draws) :=
  if s.cities.length < 2 then some (s, rnd)
  else runACO hypot B { initACO s with running := true } rnd

/-- The running total `score[0] + ... + score[j]` of the selection scores. -/
def cumScore (s : State) (ant : Ant) (i j : ℕ) : JsNum :=
  ((List.range (j + 1)).map (score hypot s ant i)).sum

/-- The ants below the cursor hold `n` cities, the ant under the cursor holds
fewer and the ants above it hold none. -/
def CursorInv (s : State) : Prop :=
  s.currentAntIndex < s.ants.length ∧
  ∀ idx ant, s.ants.get? idx = some ant →
    (idx < s.currentAntIndex → ant.path.length = s.cities.length) ∧
    (idx = s.currentAntIndex → ant.path.length < s.cities.length) ∧
    (s.currentAntIndex < idx → ant.path = [])

/-- Every entry of every path is a city index. -/
def PathsInRange (s : State) : Prop :=
  ∀ ant ∈ s.ants, ∀ c ∈ ant.path, c < s.cities.length

end Model

/-! ## Matrix access lemmas -/

theorem row_length_of_square {n : ℕ} {tau : List (List JsNum)} (h : Square n tau) (a : ℕ)
    (ha : a < n) : (tau.getD a []).length = n := by
  have h1 : a < tau.length := by rw [h.1]; exact ha
  rw [List.getD_eq_getElem?_getD, List.getElem?_eq_getElem h1]
  exact h.2 _ (List.getElem_mem _)

theorem entry_setEntry (tau : List (List JsNum)) (a b i j : ℕ) (v : JsNum) :
    entry (setEntry tau a b v) i j =
      if i = a ∧ j = b ∧ a < tau.length ∧ b < (tau.getD a []).length then v else entry tau i j := by
  unfold entry setEntry
  simp only [List.getD_eq_getElem?_getD, List.getElem?_set]
  by_cases hia : a = i
  · subst hia
    by_cases h1 : a < tau.length
    · simp only [h1, if_true, true_and, Option.getD_some, List.getElem?_set]
      by_cases hjb : b = j
      · subst hjb
        by_cases h2 : b < (tau[a]?.getD []).length
        · simp [h2]
        · rw [List.getElem?_eq_none (not_lt.mp h2)]
          simp [h2]
      · simp [hjb, Ne.symm hjb]
    · have : tau[a]? = none := List.getElem?_eq_none (by omega)
      simp [h1, this]
  · simp [hia, Ne.symm hia]

theorem square_evaporate {n : ℕ} {tau : List (List JsNum)} (h : Square n tau) :
    Square n (evaporate n tau) := by
  refine ⟨by simp [evaporate, h.1], ?_⟩
  intro row hrow
  simp only [evaporate, List.mem_map] at hrow
  obtain ⟨ir, hir, rfl⟩ := hrow
  simp only [List.length_map, List.enum_length]
  obtain ⟨_, heq⟩ := List.mem_enum hir
  rw [heq]
  exact h.2 _ (List.getElem_mem _)

theorem square_setEntry {n : ℕ} {tau : List (List JsNum)} (h : Square n tau) (a b : ℕ)
    (v : JsNum) : Square n (setEntry tau a b v) := by
  refine ⟨by simp [setEntry, h.1], ?_⟩
  intro row hrow
  unfold setEntry at hrow
  by_cases ha : a < n
  · rcases List.mem_or_eq_of_mem_set hrow with hm | he
    · exact h.2 row hm
    · subst he
      rw [List.length_set]
      exact row_length_of_square h a ha
  · rw [List.set_eq_of_length_le (by rw [h.1]; omega)] at hrow
    exact h.2 row hrow

theorem entry_setEntry_square {n : ℕ} {tau : List (List JsNum)} (h : Square n tau)
    (a b i j : ℕ) (v : JsNum) :
    entry (setEntry tau a b v) i j =
      if i = a ∧ j = b ∧ a < n ∧ b < n then v else entry tau i j := by
  rw [entry_setEntry]
  by_cases ha : a < n
  · rw [row_length_of_square h a ha, h.1]
  · have : ¬ a < tau.length := by rw [h.1]; exact ha
    simp [ha, this]

theorem square_depositEdge {n : ℕ} {tau : List (List JsNum)} (h : Square n tau) (delta : JsNum)
    (a b : ℕ) : Square n (depositEdge delta tau a b) :=
  square_setEntry (square_setEntry h _ _ _) _ _ _

/-- The entry `(i, j)` after the two additions made for the edge `(a, b)`:
one for each direction, both on `(i, i)` when `a = b = i`. -/
theorem entry_depositEdge {n : ℕ} {tau : List (List JsNum)} (h : Square n tau) (delta : JsNum)
    (a b : ℕ) {i j : ℕ} (hi : i < n) (hj : j < n) :
    entry (depositEdge delta tau a b) i j =
      entry tau i j + (if (a, b) = (i, j) then delta else 0)
        + (if (a, b) = (j, i) then delta else 0) := by
  unfold depositEdge
  simp only [entry_setEntry_square (square_setEntry h _ _ _), entry_setEntry_square h, Prod.mk.injEq]
  by_cases h1 : i = a ∧ j = b
  · obtain ⟨rfl, rfl⟩ := h1
    by_cases hab : i = j
    · subst hab
      simp only [and_self, hi, if_true]
      rfl
    · have e1 : ¬ (i = j ∧ j = i ∧ j < n ∧ i < n) := fun e => hab e.1
      have e2 : ¬ (i = j ∧ j = i) := fun e => hab e.1
      rw [if_neg e1]
      simp only [and_self, hi, hj, if_true, e2, if_false, add_zero]
      rfl
  · have h6 : ¬ (i = a ∧ j = b ∧ a < n ∧ b < n) := fun e => h1 ⟨e.1, e.2.1⟩
    have h3 : ¬ (a = i ∧ b = j) := fun e => h1 ⟨e.1.symm, e.2.symm⟩
    by_cases h2 : i = b ∧ j = a
    · obtain ⟨rfl, rfl⟩ := h2
      have hne : ¬ i = j := fun e => h1 ⟨e, e.symm⟩
      simp only [hne, false_and, and_false, if_false, and_self, hi, hj, if_true, h3, zero_add,
        add_zero]
      rfl
    · have h4 : ¬ (a = j ∧ b = i) := fun e => h2 ⟨e.2.symm, e.1.symm⟩
      have h5 : ¬ (i = b ∧ j = a ∧ b < n ∧ a < n) := fun e => h2 ⟨e.1, e.2.1⟩
      rw [if_neg h5, if_neg h6, if_neg h3, if_neg h4, add_zero, add_zero]

theorem symmetric_depositEdge {n : ℕ} {tau : List (List JsNum)} (h : Square n tau)
    (hs : Symmetric tau) (delta : JsNum) (a b : ℕ) : Symmetric (depositEdge delta tau a b) := by
  intro i j
  unfold depositEdge
  simp only [entry_setEntry_square (square_setEntry h _ _ _), entry_setEntry_square h]
  have hij := hs i j
  have hab := hs a b
  have hc : (b < n ∧ a < n) ↔ (a < n ∧ b < n) := and_comm
  simp only [hc]
  by_cases hP : a < n ∧ b < n
  · by_cases e1 : i = a <;> by_cases e2 : j = b <;> by_cases e3 : i = b <;> by_cases e4 : j = a <;>
      simp_all
  · simp [hP, hij]

/-! ## Pheromone initialisation and update -/

theorem entry_replicate (n : ℕ) (v : JsNum) (i j : ℕ) :
    entry (List.replicate n (List.replicate n v)) i j = if i < n ∧ j < n then v else JsNum.nan := by
  unfold entry
  simp only [List.getD_eq_getElem?_getD, List.getElem?_replicate]
  by_cases hi : i < n
  · by_cases hj : j < n
    · simp [hi, hj]
    · simp [hi, hj, List.getElem?_replicate]
  · simp [hi]

theorem square_replicate (n : ℕ) (v : JsNum) : Square n (List.replicate n (List.replicate n v)) := by
  refine ⟨List.length_replicate _ _, ?_⟩
  intro row hrow
  rw [List.eq_of_mem_replicate hrow]
  exact List.length_replicate _ _

theorem entry_initACO (s : State) {i j : ℕ} (hi : i < s.cities.length)
    (hj : j < s.cities.length) :
    entry (initACO s).pheromone i j
      = JsNum.fin (1 / ((s.cities.length : ℚ) * s.cities.length)) := by
  have hn : (s.cities.length : ℚ) * s.cities.length ≠ 0 := by
    have : (0 : ℚ) < s.cities.length := by exact_mod_cast (Nat.lt_of_le_of_lt (Nat.zero_le i) hi)
    positivity
  simp only [initACO, entry_replicate, hi, hj, and_self, if_true, JsNum.div, hn, if_false]

theorem symmetric_initACO (s : State) : Symmetric (initACO s).pheromone := by
  intro i j
  simp only [initACO, entry_replicate]
  by_cases hi : i < s.cities.length <;> by_cases hj : j < s.cities.length <;> simp [hi, hj]

/-- C10. After `initACO` on `n` cities the pheromone matrix has exactly `n`
rows of exactly `n` entries, every entry `(i, j)` with `i, j < n` equals
`1 / (n * n)`, and the matrix is symmetric. -/
theorem initACO_pheromone_uniform (s : State) :
    ((initACO s).pheromone.length = s.cities.length ∧
      ∀ row ∈ (initACO s).pheromone, row.length = s.cities.length) ∧
    (∀ i j, i < s.cities.length → j < s.cities.length →
      entry (initACO s).pheromone i j
        = JsNum.fin (1 / ((s.cities.length : ℚ) * s.cities.length))) ∧
    ∀ i j, entry (initACO s).pheromone i j = entry (initACO s).pheromone j i :=
  ⟨square_replicate _ _, fun _ _ hi hj => entry_initACO s hi hj, symmetric_initACO s⟩

/-- A 3-city instance of C10. -/
theorem initACO_pheromone_uniform_witness :
    (1 < 3 ∧ 2 < 3) ∧
    entry (initACO { pageLoad with cities := [⟨0, 0⟩, ⟨3, 4⟩, ⟨6, 0⟩] }).pheromone 1 2
      = JsNum.fin (1 / 9) := by
  refine ⟨by decide, ?_⟩
  have h := (initACO_pheromone_uniform { pageLoad with cities := [⟨0, 0⟩, ⟨3, 4⟩, ⟨6, 0⟩] }).2.1 1 2
    (by decide) (by decide)
  rw [h]
  norm_num

theorem entry_evaporate (n : ℕ) (tau : List (List JsNum)) (i j : ℕ) :
    entry (evaporate n tau) i j =
      if i < n ∧ j < n then JsNum.mul (JsNum.fin (1 - RHO)) (entry tau i j) else entry tau i j := by
  unfold entry evaporate
  simp only [List.getD_eq_getElem?_getD, List.getElem?_map, List.getElem?_enum]
  cases hrow : tau[i]? with
  | none => simp [JsNum.mul]
  | some row =>
    simp only [Option.map_some', Option.getD_some, List.getElem?_map, List.getElem?_enum]
    cases hp : row[j]? with
    | none => simp [JsNum.mul]
    | some p => simp

theorem foldl_depositEdge {n : ℕ} (delta : JsNum) (f : ℕ → ℕ × ℕ) {i j : ℕ} (hi : i < n)
    (hj : j < n) (ks : List ℕ) :
    ∀ tau : List (List JsNum), Square n tau →
      Square n (ks.foldl (fun t k => depositEdge delta t (f k).1 (f k).2) tau) ∧
      entry (ks.foldl (fun t k => depositEdge delta t (f k).1 (f k).2) tau) i j =
        entry tau i j +
          (ks.map fun k =>
            (if f k = (i, j) then delta else 0) + (if f k = (j, i) then delta else 0)).sum := by
  induction ks with
  | nil => intro tau h; exact ⟨h, by simp⟩
  | cons k ks ih =>
    intro tau h
    have := ih (depositEdge delta tau (f k).1 (f k).2) (square_depositEdge h _ _ _)
    refine ⟨this.1, ?_⟩
    rw [List.foldl_cons, this.2, entry_depositEdge h delta (f k).1 (f k).2 hi hj]
    simp only [List.map_cons, List.sum_cons, Prod.mk.eta, add_assoc]

theorem completeTour_edge {n : ℕ} (hn : 2 ≤ n) {path : List ℕ} (h : CompleteTour n path)
    {k : ℕ} (hk : k < n) :
    (edgeAt n path k).1 < n ∧ (edgeAt n path k).2 < n ∧ (edgeAt n path k).1 ≠ (edgeAt n path k).2 := by
  obtain ⟨hlen, hnd, hlt⟩ := h
  have hk1 : k < path.length := by omega
  have hm : (k + 1) % n < path.length := by rw [hlen]; exact Nat.mod_lt _ (by omega)
  unfold edgeAt
  simp only [List.getD_eq_getElem?_getD, List.getElem?_eq_getElem hk1, List.getElem?_eq_getElem hm,
    Option.getD_some]
  refine ⟨hlt _ (List.getElem_mem _), hlt _ (List.getElem_mem _), ?_⟩
  intro heq
  have := (List.Nodup.getElem_inj_iff hnd).mp heq
  by_cases hlast : k + 1 < n
  · rw [Nat.mod_eq_of_lt hlast] at this; omega
  · have : k + 1 = n := by omega
    subst this
    simp at *
    omega

theorem noRepeat_of_completeTour {n : ℕ} (hn : 2 ≤ n) {path : List ℕ}
    (h : CompleteTour n path) : NoRepeat n path :=
  fun _ hk => (completeTour_edge hn h hk).2.2

theorem depositAnt_entry {n : ℕ} {tau : List (List JsNum)} (h : Square n tau)
    {ant : Ant} (hlen : ant.path.length = n) {i j : ℕ} (hi : i < n) (hj : j < n) :
    Square n (depositAnt n tau ant) ∧
    entry (depositAnt n tau ant) i j =
      entry tau i j + ((List.range n).map (edgeDepositBoth n ant i j)).sum := by
  have key := foldl_depositEdge (JsNum.div (JsNum.fin Q) (JsNum.fin ant.dist)) (edgeAt n ant.path)
    hi hj (List.range n) tau h
  unfold depositAnt
  rw [hlen]
  exact key

theorem foldl_depositAnt {n : ℕ} {i j : ℕ} (hi : i < n) (hj : j < n) (ants : List Ant) :
    ∀ tau : List (List JsNum), Square n tau → (∀ ant ∈ ants, ant.path.length = n) →
      entry (ants.foldl (depositAnt n) tau) i j = entry tau i j + totalDepositBoth n ants i j := by
  induction ants with
  | nil => intro tau _ _; simp [totalDepositBoth]
  | cons ant ants ih =>
    intro tau h ht
    have h1 := depositAnt_entry h (ht ant (List.mem_cons_self _ _)) hi hj
    rw [List.foldl_cons, ih _ h1.1 (fun a ha => ht a (List.mem_cons_of_mem _ ha)), h1.2]
    simp only [totalDepositBoth, List.map_cons, List.sum_cons, add_assoc]

/-- On an edge that joins two different cities the two directions never both
match, so that the deposit is the one of the claim `(i, j)` or `(j, i)`. -/
theorem edgeDepositBoth_eq {n : ℕ} {ant : Ant} {k : ℕ}
    (h : (edgeAt n ant.path k).1 ≠ (edgeAt n ant.path k).2) (i j : ℕ) :
    edgeDepositBoth n ant i j k = edgeDeposit n ant i j k := by
  unfold edgeDepositBoth edgeDeposit
  by_cases h1 : edgeAt n ant.path k = (i, j)
  · have h2 : ¬ edgeAt n ant.path k = (j, i) := by
      intro h2
      rw [h1] at h2 h
      simp only [Prod.mk.injEq] at h2
      exact h h2.1
    rw [if_pos h1, if_neg h2, if_pos (Or.inl h1), add_zero]
  · by_cases h2 : edgeAt n ant.path k = (j, i)
    · rw [if_neg h1, if_pos h2, if_pos (Or.inr h2), zero_add]
    · rw [if_neg h1, if_neg h2, if_neg (not_or.mpr ⟨h1, h2⟩), add_zero]

theorem totalDepositBoth_eq {n : ℕ} {ants : List Ant} (h : ∀ ant ∈ ants, NoRepeat n ant.path)
    (i j : ℕ) : totalDepositBoth n ants i j = totalDeposit n ants i j := by
  unfold totalDepositBoth totalDeposit
  congr 1
  apply List.map_congr_left
  intro ant hant
  congr 1
  apply List.map_congr_left
  intro k hk
  exact edgeDepositBoth_eq (h ant hant k (List.mem_range.mp hk)) i j

/-- C1 (amended). When the matrix is `n × n` and every ant holds a path of
`n` cities, `updatePheromones` sets every entry `τ[i][j]` to
`(1 - RHO) * τ[i][j]` plus the sum, over every ant and every position `k < n`
of its path with edge `(path[k], path[(k+1) mod n])`, of `Q / ant.dist` if the
edge is `(i, j)` and of `Q / ant.dist` if the edge is `(j, i)`: an edge
`(i, i)` adds twice to `τ[i][i]`.  When no tour has an edge from a city to
itself, and so when `n ≥ 2` and every tour holds every city once, this is the
sum over the positions whose edge is `(i, j)` or `(j, i)`. -/
theorem updatePheromones_entry (s : State)
    (hsq : Square s.cities.length s.pheromone)
    (hlen : ∀ ant ∈ s.ants, ant.path.length = s.cities.length)
    (i j : ℕ) (hi : i < s.cities.length) (hj : j < s.cities.length) :
    entry (updatePheromones s).pheromone i j =
      JsNum.mul (JsNum.fin (1 - RHO)) (entry s.pheromone i j)
        + totalDepositBoth s.cities.length s.ants i j ∧
    ((∀ ant ∈ s.ants, NoRepeat s.cities.length ant.path) →
      entry (updatePheromones s).pheromone i j =
        JsNum.mul (JsNum.fin (1 - RHO)) (entry s.pheromone i j)
          + totalDeposit s.cities.length s.ants i j) ∧
    (2 ≤ s.cities.length → (∀ ant ∈ s.ants, CompleteTour s.cities.length ant.path) →
      entry (updatePheromones s).pheromone i j =
        JsNum.mul (JsNum.fin (1 - RHO)) (entry s.pheromone i j)
          + totalDeposit s.cities.length s.ants i j) := by
  have key : entry (updatePheromones s).pheromone i j =
      JsNum.mul (JsNum.fin (1 - RHO)) (entry s.pheromone i j)
        + totalDepositBoth s.cities.length s.ants i j := by
    unfold updatePheromones
    simp only
    rw [foldl_depositAnt hi hj s.ants _ (square_evaporate hsq) hlen, entry_evaporate]
    simp [hi, hj]
  refine ⟨key, fun h => ?_, fun hn h => ?_⟩
  · rw [key, totalDepositBoth_eq h]
  · rw [key, totalDepositBoth_eq (fun ant hant => noRepeat_of_completeTour hn (h ant hant))]

/-- An instance of the amended C1: on `repeatTours` each of the 60 ants adds
`Q / 6` twice to `τ[0][0]` for its edge `(0, 0)`; on `twoTours`, whose tours
hold every city once, the two ants add `Q / 10` twice each to `τ[0][1]`, as the
sum of the claim says. -/
theorem updatePheromones_entry_witness :
    (Square repeatTours.cities.length repeatTours.pheromone ∧
      ∀ ant ∈ repeatTours.ants, ant.path.length = repeatTours.cities.length) ∧
    entry (updatePheromones repeatTours).pheromone 0 0 =
      JsNum.mul (JsNum.fin (1 - RHO)) (entry repeatTours.pheromone 0 0)
        + totalDepositBoth repeatTours.cities.length repeatTours.ants 0 0 ∧
    entry (updatePheromones repeatTours).pheromone 0 0 = JsNum.fin (7 / 90 + 2000) ∧
    entry (updatePheromones twoTours).pheromone 0 1 =
      JsNum.mul (JsNum.fin (1 - RHO)) (entry twoTours.pheromone 0 1)
        + totalDeposit twoTours.cities.length twoTours.ants 0 1 ∧
    entry (updatePheromones twoTours).pheromone 0 1 = JsNum.fin (7 / 40 + 40) ∧
    ((∀ ant ∈ twoTours.ants, NoRepeat twoTours.cities.length ant.path) ∧
      entry (updatePheromones twoTours).pheromone 1 0 =
        JsNum.mul (JsNum.fin (1 - RHO)) (entry twoTours.pheromone 1 0)
          + totalDeposit twoTours.cities.length twoTours.ants 1 0) := by
  have hsq : Square repeatTours.cities.length repeatTours.pheromone := ⟨rfl, by decide⟩
  have hlen : ∀ ant ∈ repeatTours.ants, ant.path.length = repeatTours.cities.length := by
    intro ant hant
    rw [List.eq_of_mem_replicate (show ant ∈ List.replicate 60 _ from hant)]
    rfl
  have hsq2 : Square twoTours.cities.length twoTours.pheromone := ⟨rfl, by decide⟩
  have ht2 : ∀ ant ∈ twoTours.ants, CompleteTour twoTours.cities.length ant.path := by
    unfold CompleteTour; decide
  have hlen2 : ∀ ant ∈ twoTours.ants, ant.path.length = twoTours.cities.length :=
    fun ant hant => (ht2 ant hant).1
  have hnr : ∀ ant ∈ twoTours.ants, NoRepeat twoTours.cities.length ant.path := by
    unfold NoRepeat; decide
  exact ⟨⟨hsq, hlen⟩,
    (updatePheromones_entry repeatTours hsq hlen 0 0 (by decide) (by decide)).1, by decide!,
    (updatePheromones_entry twoTours hsq2 hlen2 0 1 (by decide) (by decide)).2.2 (by decide) ht2,
    by decide!,
    hnr, (updatePheromones_entry twoTours hsq2 hlen2 1 0 (by decide) (by decide)).2.1 hnr⟩

/-! ## The loop of `runACO` -/

section Loop

variable (hypot : ℚ → ℚ → ℚ)

theorem advanceAnt_eq (B steps : ℕ) (s : State) (rnd : Draws) (ant0 : Ant)
    (h : s.ants.get? s.currentAntIndex = some ant0) :
    advanceAnt hypot B steps s rnd =
      some ((completeTour hypot (steppedAnt hypot B steps s ant0 rnd).2.1 s s.currentAntIndex
              (steppedAnt hypot B steps s ant0 rnd).1).1,
            (completeTour hypot (steppedAnt hypot B steps s ant0 rnd).2.1 s s.currentAntIndex
              (steppedAnt hypot B steps s ant0 rnd).1).2,
            (steppedAnt hypot B steps s ant0 rnd).2.2) := by
  unfold advanceAnt
  rw [h]

theorem advanceAnt_some {B steps : ℕ} {s : State} {rnd : Draws} {s3 : State} {steps3 : ℕ}
    {rnd2 : Draws} (h : advanceAnt hypot B steps s rnd = some (s3, steps3, rnd2)) :
    ∃ ant0, s.ants.get? s.currentAntIndex = some ant0 ∧
      s3 = (completeTour hypot (steppedAnt hypot B steps s ant0 rnd).2.1 s s.currentAntIndex
              (steppedAnt hypot B steps s ant0 rnd).1).1 ∧
      steps3 = (completeTour hypot (steppedAnt hypot B steps s ant0 rnd).2.1 s s.currentAntIndex
              (steppedAnt hypot B steps s ant0 rnd).1).2 ∧
      rnd2 = (steppedAnt hypot B steps s ant0 rnd).2.2 := by
  cases hget : s.ants.get? s.currentAntIndex with
  | none =>
    unfold advanceAnt at h
    rw [hget] at h
    exact absurd h (by simp)
  | some ant0 =>
    rw [advanceAnt_eq hypot B steps s rnd ant0 hget] at h
    simp only [Option.some.injEq, Prod.mk.injEq] at h
    exact ⟨ant0, rfl, h.1.symm, h.2.1.symm, h.2.2.symm⟩

theorem iteration_eq (B steps : ℕ) (s : State) (rnd : Draws) (s3 : State) (steps3 : ℕ)
    (rnd2 : Draws) (h : advanceAnt hypot B steps s rnd = some (s3, steps3, rnd2)) :
    iteration hypot B steps s rnd = some ((endCycle B steps3 s3).1, (endCycle B steps3 s3).2, rnd2) := by
  unfold iteration
  rw [h]

theorem iteration_some {B steps : ℕ} {s : State} {rnd : Draws} {s1 : State} {steps1 : ℕ}
    {rnd1 : Draws} (h : iteration hypot B steps s rnd = some (s1, steps1, rnd1)) :
    ∃ s3 steps3, advanceAnt hypot B steps s rnd = some (s3, steps3, rnd1) ∧
      s1 = (endCycle B steps3 s3).1 ∧ steps1 = (endCycle B steps3 s3).2 := by
  unfold iteration at h
  split at h
  · exact absurd h (by simp)
  · rename_i s3 steps3 rnd2 heq
    simp only [Option.some.injEq, Prod.mk.injEq] at h
    obtain ⟨h1, h2, h3⟩ := h
    subst h3
    exact ⟨s3, steps3, heq, h1.symm, h2.symm⟩

theorem validDraws_rest {rnd : Draws} (h : ValidDraws rnd) : ValidDraws rnd.rest :=
  fun k => h (k + 1)

theorem initAnt_draws (n : ℕ) (ant : Ant) (rnd : Draws) :
    (initAnt n ant rnd).2 = rnd ∨ (initAnt n ant rnd).2 = rnd.rest := by
  unfold initAnt
  split
  · right; rfl
  · left; rfl

theorem selectNextCity_draws (s : State) (ant : Ant) (i : ℕ) (rnd : Draws) :
    (selectNextCity hypot s ant i rnd).2 = rnd ∨ (selectNextCity hypot s ant i rnd).2 = rnd.rest := by
  unfold selectNextCity
  simp only
  split
  · left; rfl
  · right; rfl

theorem takeStep_of_some {B steps : ℕ} {s : State} {ant : Ant} {rnd rnd1 : Draws} {next : ℕ}
    (hlt : ant.path.length < s.cities.length)
    (hsel : selectNextCity hypot s ant (ant.path.getD (ant.path.length - 1) 0) rnd
      = (some next, rnd1)) :
    takeStep hypot B steps s ant rnd =
      (⟨ant.path ++ [next], markVisited ant.visited next,
        ant.dist + distance hypot (cityAt s.cities (ant.path.getD (ant.path.length - 1) 0))
          (cityAt s.cities next)⟩, steps + 1, rnd1) := by
  unfold takeStep
  simp only [hlt, if_true]
  rw [hsel]

theorem takeStep_of_none {B steps : ℕ} {s : State} {ant : Ant} {rnd rnd1 : Draws}
    (hlt : ant.path.length < s.cities.length)
    (hsel : selectNextCity hypot s ant (ant.path.getD (ant.path.length - 1) 0) rnd
      = (none, rnd1)) :
    takeStep hypot B steps s ant rnd = (ant, B, rnd1) := by
  unfold takeStep
  simp only [hlt, if_true]
  rw [hsel]

theorem takeStep_of_not_lt {B steps : ℕ} {s : State} {ant : Ant} {rnd : Draws}
    (hlt : ¬ ant.path.length < s.cities.length) :
    takeStep hypot B steps s ant rnd = (ant, steps, rnd) := by
  unfold takeStep
  simp only [hlt, if_false]

theorem takeStep_draws (B steps : ℕ) (s : State) (ant : Ant) (rnd : Draws) :
    (takeStep hypot B steps s ant rnd).2.2 = rnd ∨ (takeStep hypot B steps s ant rnd).2.2 = rnd.rest := by
  by_cases hlt : ant.path.length < s.cities.length
  · have := selectNextCity_draws hypot s ant (ant.path.getD (ant.path.length - 1) 0) rnd
    rcases hsel : selectNextCity hypot s ant (ant.path.getD (ant.path.length - 1) 0) rnd
      with ⟨_ | next, rnd1⟩
    · rw [takeStep_of_none hypot hlt hsel]; rw [hsel] at this; exact this
    · rw [takeStep_of_some hypot hlt hsel]; rw [hsel] at this; exact this
  · rw [takeStep_of_not_lt hypot hlt]; left; rfl

theorem steppedAnt_draws (V : Draws → Prop) (hV : ∀ r, V r → V r.rest) (B steps : ℕ)
    (s : State) (ant0 : Ant) {rnd : Draws} (h : V rnd) :
    V (steppedAnt hypot B steps s ant0 rnd).2.2 := by
  unfold steppedAnt
  have h1 : V (initAnt s.cities.length ant0 rnd).2 := by
    rcases initAnt_draws s.cities.length ant0 rnd with e | e <;> rw [e]
    · exact h
    · exact hV _ h
  rcases takeStep_draws hypot B steps s (initAnt s.cities.length ant0 rnd).1
    (initAnt s.cities.length ant0 rnd).2 with e | e
  · simp only [e]; exact h1
  · simp only [e]; exact hV _ h1

theorem iteration_draws (V : Draws → Prop) (hV : ∀ r, V r → V r.rest) {B steps : ℕ}
    {s : State} {rnd : Draws} {s1 : State} {steps1 : ℕ} {rnd1 : Draws} (hv : V rnd)
    (h : iteration hypot B steps s rnd = some (s1, steps1, rnd1)) : V rnd1 := by
  obtain ⟨s3, steps3, hadv, -, -⟩ := iteration_some hypot h
  obtain ⟨ant0, -, -, -, hr⟩ := advanceAnt_some hypot hadv
  rw [hr]
  exact steppedAnt_draws hypot V hV B steps s ant0 hv

/-- An invariant of the loop body is an invariant of the loop; `V` is any
property of the draws kept by `Draws.rest`. -/
theorem runLoop_invariant (P : State → Prop) (V : Draws → Prop) (hV : ∀ r, V r → V r.rest)
    (B : ℕ)
    (hstep : ∀ steps s rnd s1 steps1 rnd1, V rnd → P s →
      iteration hypot B steps s rnd = some (s1, steps1, rnd1) → P s1) :
    ∀ fuel steps s rnd s1 rnd1, V rnd → P s →
      runLoop hypot B fuel steps s rnd = some (s1, rnd1) → P s1 := by
  intro fuel
  induction fuel with
  | zero =>
    intro steps s rnd s1 rnd1 _ hP h
    unfold runLoop at h
    split at h
    · exact absurd h (by simp)
    · simp only [Option.some.injEq, Prod.mk.injEq] at h
      rw [← h.1]; exact hP
  | succ fuel ih =>
    intro steps s rnd s1 rnd1 hv hP h
    unfold runLoop at h
    split at h
    · simp only at h
      split at h
      · exact absurd h (by simp)
      · rename_i s2 steps2 rnd2 heq
        exact ih steps2 s2 rnd2 s1 rnd1 (iteration_draws hypot V hV hv heq)
          (hstep _ _ _ _ _ _ hv hP heq) h
    · simp only [Option.some.injEq, Prod.mk.injEq] at h
      rw [← h.1]; exact hP

/-- An invariant of the loop body is an invariant of `runACO`. -/
theorem runACO_invariant (P : State → Prop) (V : Draws → Prop) (hV : ∀ r, V r → V r.rest)
    (B : ℕ)
    (hstep : ∀ steps s rnd s1 steps1 rnd1, V rnd → P s →
      iteration hypot B steps s rnd = some (s1, steps1, rnd1) → P s1)
    (s : State) (rnd : Draws) (s1 : State) (rnd1 : Draws) (hv : V rnd) (hP : P s)
    (h : runACO hypot B s rnd = some (s1, rnd1)) : P s1 := by
  unfold runACO at h
  split at h
  · exact runLoop_invariant hypot P V hV B hstep B 0 s rnd s1 rnd1 hv hP h
  · simp only [Option.some.injEq, Prod.mk.injEq] at h
    rw [← h.1]; exact hP

/-- Induction over the reachable states: a property that holds after the
start and is kept by every loop iteration holds in every reachable state. -/
theorem reachable_invariant (P : State → Prop)
    (hinit : ∀ s0 : State, 2 ≤ s0.cities.length → P (startClick s0))
    (hstep : ∀ B steps s rnd s1 steps1 rnd1, ValidDraws rnd → P s →
      iteration hypot B steps s rnd = some (s1, steps1, rnd1) → P s1)
    (s : State) (h : Reachable hypot s) : P s := by
  induction h with
  | init s0 h0 => exact hinit s0 h0
  | frame s s1 B rnd rnd1 _ hr hrun ih =>
    exact runACO_invariant hypot P ValidDraws (fun _ => validDraws_rest) B (hstep B) s rnd s1 rnd1
      hr ih hrun

theorem reachable_frames {B : ℕ} {rnd : Draws} (hv : ValidDraws rnd) :
    ∀ (k : ℕ) (s s1 : State), Reachable hypot s → frames hypot B rnd k s = some s1 →
      Reachable hypot s1 := by
  intro k
  induction k with
  | zero =>
    intro s s1 hs h
    simp only [frames, Option.some.injEq] at h
    rw [← h]; exact hs
  | succ k ih =>
    intro s s1 hs h
    unfold frames at h
    split at h
    · exact absurd h (by simp)
    · rename_i s2 rnd2 heq
      exact ih s2 s1 (Reachable.frame s s2 B rnd rnd2 hs hv heq) h

theorem frames_check {B : ℕ} {rnd : Draws} {k : ℕ} {s : State} (p : State → Bool)
    (h : (frames hypot B rnd k s).map p = some true) :
    ∃ s1, frames hypot B rnd k s = some s1 ∧ p s1 = true := by
  cases hf : frames hypot B rnd k s with
  | none => rw [hf] at h; exact absurd h (by simp)
  | some s1 =>
    rw [hf] at h
    simp only [Option.map_some', Option.some.injEq] at h
    exact ⟨s1, rfl, h⟩

end Loop

/-! ## Draws equal to zero and tours of length zero -/

theorem validDraws_zeroDraws : ValidDraws zeroDraws := by
  intro k
  simp [zeroDraws]

theorem validDraws_halfDraws : ValidDraws halfDraws := by
  intro k
  simp only [halfDraws]
  norm_num

/-- C2 (the code departs from the claim). With the draw `Math.random() = 0`,
which lies in `[0, 1)`, an ant standing on city 0 that has visited city 0 only
is sent to city 0 again: the first test `(r -= probs[0]) <= 0` of the roulette
loop is `0 <= 0`. -/
theorem selectNextCity_zero_draw_revisits :
    ValidDraws zeroDraws ∧
    isVisited (Ant.mk [0] [true, false] 0).visited 0 = true ∧
    (selectNextCity hypotQ (startClick { pageLoad with cities := twoCities })
      (Ant.mk [0] [true, false] 0) 0 zeroDraws).1 = some 0 :=
  ⟨validDraws_zeroDraws, by decide, by decide!⟩

/-- C3 (the code departs from the claim). One frame from the start on two
distinct cities, with every draw equal to `0`, leaves ant 0 with the path
`[0, 0]`: its length is the number of cities, city 0 is twice in it and city 1
is missing. -/
theorem reachable_tour_with_duplicate :
    ∃ s : State, Reachable hypotQ s ∧ 2 ≤ s.cities.length ∧
      ∃ ant ∈ s.ants, ant.path.length = s.cities.length ∧ ant.path = [0, 0] ∧
        ¬ CompleteTour s.cities.length ant.path := by
  obtain ⟨s1, hf, hp⟩ := frames_check hypotQ
    (fun s => decide (2 ≤ s.cities.length ∧
      ∃ ant ∈ s.ants, ant.path.length = s.cities.length ∧ ant.path = [0, 0]))
    (show (frames hypotQ MAX_STEPS_PER_FRAME zeroDraws 1
      (startClick { pageLoad with cities := twoCities })).map _ = some true by decide!)
  have hreach : Reachable hypotQ s1 :=
    reachable_frames hypotQ validDraws_zeroDraws 1 _ s1 (Reachable.init _ (by decide)) hf
  obtain ⟨h2, ant, hmem, hlen, hpath⟩ := of_decide_eq_true hp
  refine ⟨s1, hreach, h2, ant, hmem, hlen, hpath, ?_⟩
  intro hc
  rw [hpath] at hc
  exact absurd hc.2.1 (by decide)

/-- C9 (the code departs from the claim). On two cities at the same point every
tour has length 0, so at the end of the first cycle `updatePheromones` computes
`Q / 0`: after 40 frames (one per ant) `pheromone[0][1]` is `Infinity`. -/
theorem reachable_infinite_pheromone :
    ∃ s : State, Reachable hypotQ s ∧ s.cities = coincidentCities ∧
      entry s.pheromone 0 1 = JsNum.pinf ∧ ¬ JsNum.Finite (entry s.pheromone 0 1) := by
  obtain ⟨s1, hf, hp⟩ := frames_check hypotQ
    (fun s => decide (s.cities = coincidentCities ∧ entry s.pheromone 0 1 = JsNum.pinf))
    (show (frames hypotQ MAX_STEPS_PER_FRAME halfDraws 40
      (startClick { pageLoad with cities := coincidentCities })).map _ = some true by decide!)
  have hreach : Reachable hypotQ s1 :=
    reachable_frames hypotQ validDraws_halfDraws 40 _ s1 (Reachable.init _ (by decide)) hf
  obtain ⟨hc, he⟩ := of_decide_eq_true hp
  refine ⟨s1, hreach, hc, he, ?_⟩
  rw [he]
  exact id

/-! ## Best tour -/

section Best

variable (hypot : ℚ → ℚ → ℚ)

theorem updatePheromones_best (s : State) :
    (updatePheromones s).bestDist = s.bestDist ∧ (updatePheromones s).bestPath = s.bestPath ∧
    (updatePheromones s).cities = s.cities ∧ (updatePheromones s).running = s.running ∧
    (updatePheromones s).currentAntIndex = s.currentAntIndex ∧
    (updatePheromones s).ants.length = s.ants.length := by
  simp [updatePheromones]

theorem endCycle_best (B steps : ℕ) (s : State) :
    (endCycle B steps s).1.bestDist = s.bestDist ∧ (endCycle B steps s).1.bestPath = s.bestPath ∧
    (endCycle B steps s).1.cities = s.cities ∧ (endCycle B steps s).1.running = s.running ∧
    (endCycle B steps s).1.ants.length = s.ants.length := by
  unfold endCycle
  split
  · simp [updatePheromones]
  · simp

theorem completeTour_of_done {steps : ℕ} {s : State} {idx : ℕ} {ant : Ant}
    (h : ant.path.length = s.cities.length) :
    completeTour hypot steps s idx ant =
      ({ s with
         ants := s.ants.set idx ⟨ant.path, ant.visited, tourDist hypot s ant⟩
         bestDist := if ((tourDist hypot s ant : ℚ) : WithTop ℚ) < s.bestDist
           then ((tourDist hypot s ant : ℚ) : WithTop ℚ) else s.bestDist
         bestPath := if ((tourDist hypot s ant : ℚ) : WithTop ℚ) < s.bestDist
           then ant.path else s.bestPath
         currentAntIndex := s.currentAntIndex + 1 }, steps + 1) := by
  unfold completeTour
  simp only [h, if_true, decide_eq_true_eq]

theorem completeTour_of_not_done {steps : ℕ} {s : State} {idx : ℕ} {ant : Ant}
    (h : ¬ ant.path.length = s.cities.length) :
    completeTour hypot steps s idx ant = ({ s with ants := s.ants.set idx ant }, steps) := by
  unfold completeTour
  simp only [h, if_false]

/-- C5. When the ant under the cursor completes its tour in an iteration of
`runACO`, with final length `L`, the stored best becomes `(L, path)` if `L` is
strictly less than the previous `bestDist` (always so when `bestDist` is
`Infinity`), and otherwise `bestDist` and `bestPath` are both unchanged: a tie
keeps the earlier tour. -/
theorem best_compare_and_replace (B steps : ℕ) (s : State) (rnd : Draws) (ant0 : Ant)
    (hget : s.ants.get? s.currentAntIndex = some ant0)
    (hdone : (steppedAnt hypot B steps s ant0 rnd).1.path.length = s.cities.length) :
    ∃ s1 steps1 rnd1, iteration hypot B steps s rnd = some (s1, steps1, rnd1) ∧
      ((((tourDist hypot s (steppedAnt hypot B steps s ant0 rnd).1 : ℚ) : WithTop ℚ) < s.bestDist →
        s1.bestDist = ((tourDist hypot s (steppedAnt hypot B steps s ant0 rnd).1 : ℚ) : WithTop ℚ) ∧
        s1.bestPath = (steppedAnt hypot B steps s ant0 rnd).1.path) ∧
      (¬ ((tourDist hypot s (steppedAnt hypot B steps s ant0 rnd).1 : ℚ) : WithTop ℚ) < s.bestDist →
        s1.bestDist = s.bestDist ∧ s1.bestPath = s.bestPath) ∧
      (s.bestDist = ⊤ →
        s1.bestDist = ((tourDist hypot s (steppedAnt hypot B steps s ant0 rnd).1 : ℚ) : WithTop ℚ) ∧
        s1.bestPath = (steppedAnt hypot B steps s ant0 rnd).1.path)) := by
  have hadv := advanceAnt_eq hypot B steps s rnd ant0 hget
  have hit := iteration_eq hypot B steps s rnd _ _ _ hadv
  refine ⟨_, _, _, hit, ?_⟩
  have hb := endCycle_best B
    (completeTour hypot (steppedAnt hypot B steps s ant0 rnd).2.1 s s.currentAntIndex
      (steppedAnt hypot B steps s ant0 rnd).1).2
    (completeTour hypot (steppedAnt hypot B steps s ant0 rnd).2.1 s s.currentAntIndex
      (steppedAnt hypot B steps s ant0 rnd).1).1
  rw [hb.1, hb.2.1, completeTour_of_done hypot hdone]
  simp only
  refine ⟨fun h => by simp [h], fun h => by simp [h], fun h => ?_⟩
  have hlt : ((tourDist hypot s (steppedAnt hypot B steps s ant0 rnd).1 : ℚ) : WithTop ℚ)
      < s.bestDist := by rw [h]; exact WithTop.coe_lt_top _
  simp [hlt]

/-- An instance of C5: the first ant of the first cycle on `twoCities` completes
the tour `[1, 0]` of length 10 and replaces the initial best `Infinity`. -/
theorem best_compare_and_replace_witness :
    startTwo.ants.get? startTwo.currentAntIndex = some ⟨[], [], 0⟩ ∧
    (steppedAnt hypotQ 2 0 startTwo ⟨[], [], 0⟩ halfDraws).1.path.length = startTwo.cities.length ∧
    ∃ s1 steps1 rnd1, iteration hypotQ 2 0 startTwo halfDraws = some (s1, steps1, rnd1) ∧
      s1.bestDist = ((10 : ℚ) : WithTop ℚ) ∧ s1.bestPath = [1, 0] := by
  refine ⟨by decide, by decide!, ?_⟩
  obtain ⟨s1, steps1, rnd1, hit, -, -, h3⟩ :=
    best_compare_and_replace hypotQ 2 0 startTwo halfDraws ⟨[], [], 0⟩ (by decide) (by decide!)
  refine ⟨s1, steps1, rnd1, hit, ?_⟩
  have h := h3 rfl
  rw [h.1, h.2]
  exact ⟨by decide!, by decide!⟩

end Best

section Progress

variable (hypot : ℚ → ℚ → ℚ)

theorem initAnt_of_empty {n : ℕ} {ant : Ant} {rnd : Draws} (h : ant.path.length = 0) :
    initAnt n ant rnd =
      (⟨[((rnd 0) * n).floor.toNat],
        markVisited (List.replicate n false) ((rnd 0) * n).floor.toNat, 0⟩, rnd.rest) := by
  unfold initAnt
  simp only [h, if_true]

theorem initAnt_of_nonempty {n : ℕ} {ant : Ant} {rnd : Draws} (h : ¬ ant.path.length = 0) :
    initAnt n ant rnd = (ant, rnd) := by
  unfold initAnt
  simp only [h, if_false]

theorem initAnt_length {n : ℕ} (hn : 1 ≤ n) {ant : Ant} (rnd : Draws)
    (h : ant.path.length ≤ n) :
    1 ≤ (initAnt n ant rnd).1.path.length ∧ (initAnt n ant rnd).1.path.length ≤ n := by
  by_cases h0 : ant.path.length = 0
  · rw [initAnt_of_empty h0]
    exact ⟨le_refl _, hn⟩
  · rw [initAnt_of_nonempty h0]
    exact ⟨Nat.one_le_iff_ne_zero.mpr h0, h⟩

/-- The outcome of part 2 of the loop body on an ant whose path is not longer
than the number of cities. -/
theorem takeStep_progress {B steps : ℕ} {s : State} {ant : Ant} (rnd : Draws)
    (h1 : 1 ≤ ant.path.length) (h : ant.path.length ≤ s.cities.length) :
    1 ≤ (takeStep hypot B steps s ant rnd).1.path.length ∧
    (takeStep hypot B steps s ant rnd).1.path.length ≤ s.cities.length ∧
    (steps < B → steps ≤ (takeStep hypot B steps s ant rnd).2.1 ∧
      ((takeStep hypot B steps s ant rnd).1.path.length < s.cities.length →
        steps < (takeStep hypot B steps s ant rnd).2.1)) := by
  by_cases hlt : ant.path.length < s.cities.length
  · rcases hsel : selectNextCity hypot s ant (ant.path.getD (ant.path.length - 1) 0) rnd
      with ⟨_ | next, rnd1⟩
    · rw [takeStep_of_none hypot hlt hsel]
      exact ⟨h1, h, fun hB => ⟨le_of_lt hB, fun _ => hB⟩⟩
    · rw [takeStep_of_some hypot hlt hsel]
      simp only [List.length_append, List.length_singleton]
      exact ⟨by omega, by omega, fun _ => ⟨by omega, fun _ => by omega⟩⟩
  · rw [takeStep_of_not_lt hypot hlt]
    exact ⟨h1, h, fun _ => ⟨le_refl _, fun h2 => absurd h2 hlt⟩⟩

theorem steppedAnt_progress (B steps : ℕ) {s : State} (hn : 1 ≤ s.cities.length)
    {ant0 : Ant} (rnd : Draws) (h : ant0.path.length ≤ s.cities.length) :
    1 ≤ (steppedAnt hypot B steps s ant0 rnd).1.path.length ∧
    (steppedAnt hypot B steps s ant0 rnd).1.path.length ≤ s.cities.length ∧
    (steps < B → steps ≤ (steppedAnt hypot B steps s ant0 rnd).2.1 ∧
      ((steppedAnt hypot B steps s ant0 rnd).1.path.length < s.cities.length →
        steps < (steppedAnt hypot B steps s ant0 rnd).2.1)) := by
  have hi := initAnt_length hn rnd h
  exact takeStep_progress hypot (initAnt s.cities.length ant0 rnd).2 hi.1 hi.2

theorem completeTour_fields (steps : ℕ) (s : State) (idx : ℕ) (ant : Ant) :
    (completeTour hypot steps s idx ant).1.cities = s.cities ∧
    (completeTour hypot steps s idx ant).1.running = s.running ∧
    (completeTour hypot steps s idx ant).1.pheromone = s.pheromone ∧
    (completeTour hypot steps s idx ant).1.ants.length = s.ants.length ∧
    (completeTour hypot steps s idx ant).1.bestDist ≤ s.bestDist := by
  by_cases h : ant.path.length = s.cities.length
  · rw [completeTour_of_done hypot h]
    simp only [List.length_set, true_and]
    split
    · rename_i hlt; exact le_of_lt hlt
    · exact le_refl _
  · rw [completeTour_of_not_done hypot h]
    simp

theorem iteration_fields {B steps : ℕ} {s : State} {rnd : Draws} {s1 : State} {steps1 : ℕ}
    {rnd1 : Draws} (h : iteration hypot B steps s rnd = some (s1, steps1, rnd1)) :
    s1.cities = s.cities ∧ s1.running = s.running ∧ s1.ants.length = s.ants.length ∧
    s1.bestDist ≤ s.bestDist := by
  obtain ⟨s3, steps3, hadv, h1, -⟩ := iteration_some hypot h
  obtain ⟨ant0, -, h3, -, -⟩ := advanceAnt_some hypot hadv
  have hc := completeTour_fields hypot (steppedAnt hypot B steps s ant0 rnd).2.1 s
    s.currentAntIndex (steppedAnt hypot B steps s ant0 rnd).1
  rw [← h3] at hc
  have he := endCycle_best B steps3 s3
  rw [← h1] at he
  exact ⟨he.2.2.1.trans hc.1, he.2.2.2.1.trans hc.2.1, he.2.2.2.2.trans hc.2.2.2.1,
    he.1 ▸ hc.2.2.2.2⟩

theorem runACO_bestDist_le {B : ℕ} {s : State} {rnd : Draws} {s1 : State} {rnd1 : Draws}
    (h : runACO hypot B s rnd = some (s1, rnd1)) : s1.bestDist ≤ s.bestDist :=
  runACO_invariant hypot (fun t => t.bestDist ≤ s.bestDist) (fun _ => True) (fun _ _ => trivial) B
    (fun _ _ _ _ _ _ _ hP hit => le_trans (iteration_fields hypot hit).2.2.2 hP)
    s rnd s1 rnd1 trivial (le_refl _) h

theorem endCycle_of_lt {B steps : ℕ} {s : State} (h : s.currentAntIndex < s.ants.length) :
    endCycle B steps s = (s, steps) := by
  unfold endCycle
  simp only [not_le.mpr h, if_false]

theorem endCycle_of_le {B steps : ℕ} {s : State} (h : s.ants.length ≤ s.currentAntIndex) :
    endCycle B steps s =
      ({ updatePheromones s with
         currentAntIndex := 0
         SHOW_ALL_ANT_PATHS :=
           if 0 < (updatePheromones s).bestPath.length then false
           else (updatePheromones s).SHOW_ALL_ANT_PATHS }, B) := by
  unfold endCycle
  simp only [h, if_true]

theorem get?_of_ready {s : State} (h : Ready s) :
    ∃ ant0, s.ants.get? s.currentAntIndex = some ant0 ∧ ant0 ∈ s.ants := by
  refine ⟨s.ants.get ⟨s.currentAntIndex, h.2.1⟩, List.get?_eq_get h.2.1, List.get_mem _ _ _⟩

/-- A loop iteration started in a `Ready` state ends in a `Ready` state and,
when the loop condition `steps < B` holds, increases `stepsTaken`. -/
theorem iteration_ready {B steps : ℕ} {s : State} {rnd : Draws} {s1 : State} {steps1 : ℕ}
    {rnd1 : Draws} (hr : Ready s)
    (h : iteration hypot B steps s rnd = some (s1, steps1, rnd1)) :
    Ready s1 ∧ (steps < B → steps < steps1) := by
  obtain ⟨s3, steps3, hadv, h1, h2⟩ := iteration_some hypot h
  obtain ⟨ant0, hget, h3, h4, -⟩ := advanceAnt_some hypot hadv
  have hmem : ant0 ∈ s.ants := List.get?_mem hget
  obtain ⟨hn, hcur, hlen⟩ := hr
  obtain ⟨hp1, hp2, hp3⟩ := steppedAnt_progress hypot B steps hn rnd (hlen ant0 hmem)
  by_cases hdone : (steppedAnt hypot B steps s ant0 rnd).1.path.length = s.cities.length
  · rw [completeTour_of_done hypot hdone] at h3 h4
    simp only at h3 h4
    by_cases hend : s3.ants.length ≤ s3.currentAntIndex
    · rw [endCycle_of_le hend] at h1 h2
      subst h1 h2
      refine ⟨⟨?_, ?_, ?_⟩, fun hB => hB⟩
      · simp only [updatePheromones]; rw [h3]; exact hn
      · simp only [updatePheromones, List.length_map]; rw [h3]
        simp only [List.length_set]; omega
      · intro ant ha
        simp only [updatePheromones, List.mem_map] at ha
        obtain ⟨_, _, rfl⟩ := ha
        exact Nat.zero_le _
    · rw [endCycle_of_lt (not_le.mp hend)] at h1 h2
      subst h1 h2
      refine ⟨⟨?_, not_le.mp hend, ?_⟩, fun hB => ?_⟩
      · rw [h3]; exact hn
      · intro ant ha
        rw [h3] at ha ⊢
        simp only at ha ⊢
        rcases List.mem_or_eq_of_mem_set ha with hm | he
        · exact hlen ant hm
        · rw [he]; exact hp2
      · rw [h4]; have := (hp3 hB).1; omega
  · rw [completeTour_of_not_done hypot hdone] at h3 h4
    simp only at h3 h4
    have hlt : s3.currentAntIndex < s3.ants.length := by
      rw [h3]; simp only [List.length_set]; exact hcur
    rw [endCycle_of_lt hlt] at h1 h2
    subst h1 h2
    refine ⟨⟨?_, hlt, ?_⟩, fun hB => ?_⟩
    · rw [h3]; exact hn
    · intro ant ha
      rw [h3] at ha ⊢
      simp only at ha ⊢
      rcases List.mem_or_eq_of_mem_set ha with hm | he
      · exact hlen ant hm
      · rw [he]; exact hp2
    · rw [h4]; exact (hp3 hB).2 (lt_of_le_of_ne hp2 hdone)

theorem iteration_isSome_of_ready {s : State} (hr : Ready s) (B steps : ℕ) (rnd : Draws) :
    ∃ r, iteration hypot B steps s rnd = some r := by
  obtain ⟨ant0, hget, -⟩ := get?_of_ready hr
  exact ⟨_, iteration_eq hypot B steps s rnd _ _ _ (advanceAnt_eq hypot B steps s rnd ant0 hget)⟩

/-- In a `Ready` state the loop of `runACO` ends within `B - steps` iterations. -/
theorem runLoop_total (B : ℕ) :
    ∀ (fuel steps : ℕ) (s : State) (rnd : Draws), Ready s → B - steps ≤ fuel →
      ∃ r, runLoop hypot B fuel steps s rnd = some r := by
  intro fuel
  induction fuel with
  | zero =>
    intro steps s rnd _ hf
    unfold runLoop
    rw [if_neg (by omega)]
    exact ⟨_, rfl⟩
  | succ fuel ih =>
    intro steps s rnd hr hf
    unfold runLoop
    by_cases hB : steps < B
    · rw [if_pos hB]
      obtain ⟨⟨s1, steps1, rnd1⟩, hit⟩ := iteration_isSome_of_ready hypot hr B steps rnd
      have h1 := iteration_ready hypot hr hit
      simp only [hit]
      exact ih steps1 s1 rnd1 h1.1 (by have := h1.2 hB; omega)
    · rw [if_neg hB]
      exact ⟨_, rfl⟩

theorem runACO_total {s : State} (hr : Ready s) (B : ℕ) (rnd : Draws) :
    ∃ r, runACO hypot B s rnd = some r := by
  unfold runACO
  split
  · exact runLoop_total hypot B B 0 s rnd hr (by omega)
  · exact ⟨_, rfl⟩

theorem startClick_eq {s0 : State} (h : 2 ≤ s0.cities.length) :
    startClick s0 = { initACO s0 with running := true } := by
  unfold startClick
  rw [if_neg (by omega)]

theorem ready_of_reachable {s : State} (h : Reachable hypot s) : Ready s := by
  refine reachable_invariant hypot Ready ?_ ?_ s h
  · intro s0 h0
    rw [startClick_eq h0]
    refine ⟨?_, ?_, ?_⟩
    · show 1 ≤ s0.cities.length
      omega
    · show 0 < (List.replicate (max 20 (s0.cities.length * 20)) (Ant.mk [] [] 0)).length
      rw [List.length_replicate]
      exact lt_of_lt_of_le (by decide) (le_max_left _ _)
    · intro ant ha
      have : ant = Ant.mk [] [] 0 := List.eq_of_mem_replicate ha
      rw [this]
      exact Nat.zero_le _
  · intro B steps s rnd s1 steps1 rnd1 _ hP hit
    exact (iteration_ready hypot hP hit).1

theorem runsTo_bestDist_le {s s1 : State} (h : RunsTo hypot s s1) : s1.bestDist ≤ s.bestDist := by
  induction h with
  | refl => exact le_refl _
  | frame s1 s2 B rnd rnd2 _ hrun ih => exact le_trans (runACO_bestDist_le hypot hrun) ih

/-- C6. `bestDist` never increases: after one invocation of `runACO`, with any
budget and any draws, it is at most what it was before; hence also after any
sequence of invocations. In every reachable state the invocation does return. -/
theorem bestDist_nonincreasing (s : State) :
    (∀ B rnd s1 rnd1, runACO hypot B s rnd = some (s1, rnd1) → s1.bestDist ≤ s.bestDist) ∧
    (∀ s1, RunsTo hypot s s1 → s1.bestDist ≤ s.bestDist) ∧
    (Reachable hypot s → ∀ B rnd, ∃ s1 rnd1, runACO hypot B s rnd = some (s1, rnd1)) := by
  refine ⟨fun B rnd s1 rnd1 h => runACO_bestDist_le hypot h,
    fun s1 h => runsTo_bestDist_le hypot h, fun hr B rnd => ?_⟩
  obtain ⟨⟨s1, rnd1⟩, h⟩ := runACO_total hypot (ready_of_reachable hypot hr) B rnd
  exact ⟨s1, rnd1, h⟩

/-- An instance of C6: a frame from `lastAnt`, whose best length is 10. -/
theorem bestDist_nonincreasing_witness :
    ∃ s1 rnd1, runACO hypotQ 2 lastAnt halfDraws = some (s1, rnd1) ∧
      s1.bestDist ≤ ((10 : ℚ) : WithTop ℚ) := by
  have hsome : (runACO hypotQ 2 lastAnt halfDraws).isSome = true := by decide!
  obtain ⟨⟨s1, rnd1⟩, hrun⟩ := Option.isSome_iff_exists.mp hsome
  exact ⟨s1, rnd1, hrun, (bestDist_nonincreasing hypotQ lastAnt).1 2 halfDraws s1 rnd1 hrun⟩

/-- C7. When the cursor is on the last ant and that ant completes its tour
in a loop iteration of `runACO`, the same iteration runs `updatePheromones`
once (one evaporation, then the deposits of the ants in order), leaves every
ant reset to `{ path: [], visited: [], dist: 0 }`, rewinds `currentAntIndex` to
0 and sets `stepsTaken` to the budget, so that the loop ends with this
iteration whatever budget remained. -/
theorem cycle_completion (B steps : ℕ) (s : State) (rnd : Draws) (ant0 : Ant)
    (hB : steps < B)
    (hget : s.ants.get? s.currentAntIndex = some ant0)
    (hlast : s.currentAntIndex + 1 = s.ants.length)
    (hdone : (steppedAnt hypot B steps s ant0 rnd).1.path.length = s.cities.length) :
    ∃ s1, iteration hypot B steps s rnd = some (s1, B, (steppedAnt hypot B steps s ant0 rnd).2.2) ∧
      s1.pheromone =
        (s.ants.set s.currentAntIndex
          ⟨(steppedAnt hypot B steps s ant0 rnd).1.path,
            (steppedAnt hypot B steps s ant0 rnd).1.visited,
            tourDist hypot s (steppedAnt hypot B steps s ant0 rnd).1⟩).foldl
          (depositAnt s.cities.length) (evaporate s.cities.length s.pheromone) ∧
      s1.ants.length = s.ants.length ∧
      (∀ ant ∈ s1.ants, ant = ⟨[], [], 0⟩) ∧
      s1.currentAntIndex = 0 ∧
      ∀ fuel, runLoop hypot B (fuel + 1) steps s rnd
        = some (s1, (steppedAnt hypot B steps s ant0 rnd).2.2) := by
  have hadv := advanceAnt_eq hypot B steps s rnd ant0 hget
  have hit := iteration_eq hypot B steps s rnd _ _ _ hadv
  rw [completeTour_of_done hypot hdone] at hit
  simp only at hit
  rw [endCycle_of_le (by simp only [List.length_set]; omega)] at hit
  simp only at hit
  refine ⟨_, hit, ?_, ?_, ?_, ?_, ?_⟩
  · simp only [updatePheromones]
  · simp only [updatePheromones, List.length_map, List.length_set]
  · intro ant ha
    simp only [updatePheromones, List.mem_map] at ha
    obtain ⟨_, _, rfl⟩ := ha
    rfl
  · rfl
  · intro fuel
    unfold runLoop
    rw [if_pos hB]
    simp only [hit]
    unfold runLoop
    rw [if_neg (lt_irrefl B)]

/-- An instance of C7: the second of two ants completes its tour with budget
5 and no step taken yet; the loop ends at once with both ants reset. -/
theorem cycle_completion_witness :
    (0 < 5 ∧ lastAnt.ants.get? lastAnt.currentAntIndex = some ⟨[], [], 0⟩ ∧
      lastAnt.currentAntIndex + 1 = lastAnt.ants.length ∧
      (steppedAnt hypotQ 5 0 lastAnt ⟨[], [], 0⟩ halfDraws).1.path.length
        = lastAnt.cities.length) ∧
    ∃ s1, runLoop hypotQ 5 5 0 lastAnt halfDraws
        = some (s1, (steppedAnt hypotQ 5 0 lastAnt ⟨[], [], 0⟩ halfDraws).2.2) ∧
      s1.ants = [⟨[], [], 0⟩, ⟨[], [], 0⟩] ∧ s1.currentAntIndex = 0 := by
  refine ⟨⟨by decide, by decide, by decide, by decide!⟩, ?_⟩
  obtain ⟨s1, -, -, hlen, hall, hcur, hloop⟩ :=
    cycle_completion hypotQ 5 0 lastAnt halfDraws ⟨[], [], 0⟩ (by decide) (by decide) (by decide)
      (by decide!)
  refine ⟨s1, hloop 4, ?_, hcur⟩
  have h2 : s1.ants.length = 2 := hlen
  match hs : s1.ants, h2 with
  | [a, b], _ =>
    rw [hs] at hall
    rw [hall a (by simp), hall b (by simp)]

end Progress

/-! ## Symmetry of the pheromone matrix -/

section Symmetry

variable (hypot : ℚ → ℚ → ℚ)

theorem finiteOrInf_add {a b : JsNum} (ha : a.FiniteOrInf) (hb : b.FiniteOrInf) :
    (JsNum.add a b).FiniteOrInf := by
  cases a <;> cases b <;> simp_all [JsNum.add, JsNum.FiniteOrInf]

theorem finiteOrInf_evaporated {a : JsNum} (ha : a.FiniteOrInf) :
    (JsNum.mul (JsNum.fin (1 - RHO)) a).FiniteOrInf := by
  cases a <;> simp_all [JsNum.mul, JsNum.FiniteOrInf, JsNum.signedInf, RHO]
  norm_num

theorem finiteOrInf_delta (d : ℚ) : (JsNum.div (JsNum.fin Q) (JsNum.fin d)).FiniteOrInf := by
  by_cases h : d = 0
  · simp [JsNum.div, h, JsNum.signedInf, Q, JsNum.FiniteOrInf]
  · simp [JsNum.div, h, JsNum.FiniteOrInf]

theorem ne_nan_of_finiteOrInf {a : JsNum} (ha : a.FiniteOrInf) : a ≠ JsNum.nan := by
  intro h
  rw [h] at ha
  exact ha

theorem symmetric_evaporate {n : ℕ} {tau : List (List JsNum)} (hs : Symmetric tau) :
    Symmetric (evaporate n tau) := by
  intro i j
  rw [entry_evaporate, entry_evaporate, hs i j]
  by_cases hi : i < n <;> by_cases hj : j < n <;> simp [hi, hj]

theorem noNaN_evaporate {n : ℕ} {tau : List (List JsNum)} (h : NoNaN n tau) :
    NoNaN n (evaporate n tau) := by
  intro i j hi hj
  rw [entry_evaporate, if_pos ⟨hi, hj⟩]
  exact finiteOrInf_evaporated (h i j hi hj)

theorem noNaN_setEntry {n : ℕ} {tau : List (List JsNum)} (hsq : Square n tau) (h : NoNaN n tau)
    (a b : ℕ) {v : JsNum} (hv : v.FiniteOrInf) : NoNaN n (setEntry tau a b v) := by
  intro i j hi hj
  rw [entry_setEntry_square hsq]
  split
  · exact hv
  · exact h i j hi hj

theorem noNaN_depositEdge {n : ℕ} {tau : List (List JsNum)} (hsq : Square n tau)
    (h : NoNaN n tau) {delta : JsNum} (hd : delta.FiniteOrInf) (a b : ℕ) :
    NoNaN n (depositEdge delta tau a b) := by
  unfold depositEdge
  by_cases hab : a < n ∧ b < n
  · have h1 : NoNaN n (setEntry tau a b (JsNum.add (entry tau a b) delta)) :=
      noNaN_setEntry hsq h a b (finiteOrInf_add (h a b hab.1 hab.2) hd)
    exact noNaN_setEntry (square_setEntry hsq _ _ _) h1 b a
      (finiteOrInf_add (h1 b a hab.2 hab.1) hd)
  · intro i j hi hj
    rw [entry_setEntry_square (square_setEntry hsq _ _ _)]
    have e1 : ¬ (i = b ∧ j = a ∧ b < n ∧ a < n) := fun e => hab ⟨e.2.2.2, e.2.2.1⟩
    have e2 : ¬ (i = a ∧ j = b ∧ a < n ∧ b < n) := fun e => hab e.2.2
    rw [if_neg e1, entry_setEntry_square hsq, if_neg e2]
    exact h i j hi hj

theorem goodMatrix_depositAnt {n : ℕ} {tau : List (List JsNum)} (h : GoodMatrix n tau)
    (ant : Ant) : GoodMatrix n (depositAnt n tau ant) := by
  unfold depositAnt
  simp only
  generalize List.range ant.path.length = ks
  induction ks generalizing tau with
  | nil => exact h
  | cons k ks ih =>
    rw [List.foldl_cons]
    exact ih ⟨square_depositEdge h.1 _ _ _, symmetric_depositEdge h.1 h.2.1 _ _ _,
      noNaN_depositEdge h.1 h.2.2 (finiteOrInf_delta ant.dist) _ _⟩

theorem goodMatrix_foldl_depositAnt {n : ℕ} (ants : List Ant) :
    ∀ tau : List (List JsNum), GoodMatrix n tau → GoodMatrix n (ants.foldl (depositAnt n) tau) := by
  induction ants with
  | nil => intro tau h; exact h
  | cons ant ants ih =>
    intro tau h
    rw [List.foldl_cons]
    exact ih _ (goodMatrix_depositAnt h ant)

theorem goodMatrix_updatePheromones {s : State} (h : GoodMatrix s.cities.length s.pheromone) :
    GoodMatrix s.cities.length (updatePheromones s).pheromone := by
  unfold updatePheromones
  exact goodMatrix_foldl_depositAnt s.ants _
    ⟨square_evaporate h.1, symmetric_evaporate h.2.1, noNaN_evaporate h.2.2⟩

theorem goodMatrix_initACO (s : State) :
    GoodMatrix s.cities.length (initACO s).pheromone := by
  refine ⟨square_replicate _ _, symmetric_initACO s, ?_⟩
  intro i j hi hj
  rw [entry_initACO s hi hj]
  trivial

theorem iteration_goodMatrix {B steps : ℕ} {s : State} {rnd : Draws} {s1 : State} {steps1 : ℕ}
    {rnd1 : Draws} (hg : GoodMatrix s.cities.length s.pheromone)
    (h : iteration hypot B steps s rnd = some (s1, steps1, rnd1)) :
    GoodMatrix s1.cities.length s1.pheromone := by
  obtain ⟨s3, steps3, hadv, h1, -⟩ := iteration_some hypot h
  obtain ⟨ant0, -, h3, -, -⟩ := advanceAnt_some hypot hadv
  have hc := completeTour_fields hypot (steppedAnt hypot B steps s ant0 rnd).2.1 s
    s.currentAntIndex (steppedAnt hypot B steps s ant0 rnd).1
  rw [← h3] at hc
  have hg3 : GoodMatrix s3.cities.length s3.pheromone := by rw [hc.1, hc.2.2.1]; exact hg
  by_cases hend : s3.ants.length ≤ s3.currentAntIndex
  · rw [endCycle_of_le hend] at h1
    rw [h1]
    exact goodMatrix_updatePheromones hg3
  · rw [endCycle_of_lt (not_le.mp hend)] at h1
    rw [h1]
    exact hg3

theorem goodMatrix_of_reachable {s : State} (h : Reachable hypot s) :
    GoodMatrix s.cities.length s.pheromone := by
  refine reachable_invariant hypot (fun t => GoodMatrix t.cities.length t.pheromone) ?_ ?_ s h
  · intro s0 h0
    rw [startClick_eq h0]
    exact goodMatrix_initACO s0
  · intro B steps s rnd s1 steps1 rnd1 _ hP hit
    exact iteration_goodMatrix hypot hP hit

/-- C8. The pheromone matrix is symmetric in every reachable state, and none
of its entries is `NaN`, so that `τ[i][j] == τ[j][i]` holds as a comparison of
numbers; `updatePheromones` keeps an `n × n` matrix symmetric; and a loop
iteration of `runACO` that leaves the cursor on an ant, so that no cycle ends,
does not modify the matrix. -/
theorem pheromone_symmetric :
    (∀ s : State, Reachable hypot s →
      (∀ i j, entry s.pheromone i j = entry s.pheromone j i) ∧
      ∀ i j, i < s.cities.length → j < s.cities.length → entry s.pheromone i j ≠ JsNum.nan) ∧
    (∀ s : State, Square s.cities.length s.pheromone →
      (∀ i j, entry s.pheromone i j = entry s.pheromone j i) →
      ∀ i j, entry (updatePheromones s).pheromone i j = entry (updatePheromones s).pheromone j i) ∧
    (∀ (B steps : ℕ) (s : State) (rnd : Draws) (s3 : State) (steps3 : ℕ) (rnd2 : Draws),
      advanceAnt hypot B steps s rnd = some (s3, steps3, rnd2) →
      s3.currentAntIndex < s3.ants.length →
      iteration hypot B steps s rnd = some (s3, steps3, rnd2) ∧ s3.pheromone = s.pheromone) := by
  refine ⟨fun s hr => ?_, fun s hsq hs => ?_, ?_⟩
  · have hg := goodMatrix_of_reachable hypot hr
    exact ⟨hg.2.1, fun i j hi hj => ne_nan_of_finiteOrInf (hg.2.2 i j hi hj)⟩
  · unfold updatePheromones
    simp only
    have hsq1 := square_evaporate hsq
    have hs1 : Symmetric (evaporate s.cities.length s.pheromone) := symmetric_evaporate hs
    generalize evaporate s.cities.length s.pheromone = tau at hsq1 hs1
    generalize s.ants = ants
    induction ants generalizing tau with
    | nil => exact hs1
    | cons ant ants ih =>
      rw [List.foldl_cons]
      have key : Square s.cities.length (depositAnt s.cities.length tau ant) ∧
          Symmetric (depositAnt s.cities.length tau ant) := by
        unfold depositAnt
        simp only
        generalize List.range ant.path.length = ks
        induction ks generalizing tau with
        | nil => exact ⟨hsq1, hs1⟩
        | cons k ks ihk =>
          rw [List.foldl_cons]
          exact ihk _ (square_depositEdge hsq1 _ _ _) (symmetric_depositEdge hsq1 hs1 _ _ _)
      exact ih _ key.1 key.2
  · intro B steps s rnd s3 steps3 rnd2 hadv hlt
    have hit := iteration_eq hypot B steps s rnd s3 steps3 rnd2 hadv
    rw [endCycle_of_lt hlt] at hit
    refine ⟨hit, ?_⟩
    obtain ⟨ant0, -, h3, -, -⟩ := advanceAnt_some hypot hadv
    rw [h3]
    exact (completeTour_fields hypot _ s s.currentAntIndex _).2.2.1

/-- An instance of C8: the state after the first complete cycle on
`twoCities` is reachable, and its matrix is symmetric with
`τ[0][1] = τ[1][0] = 0.7 / 4 + 80 * (Q / 10)`. -/
theorem pheromone_symmetric_witness :
    ∃ s : State, Reachable hypotQ s ∧ entry s.pheromone 0 1 = JsNum.fin (32007 / 40) ∧
      entry s.pheromone 0 1 = entry s.pheromone 1 0 ∧ entry s.pheromone 0 1 ≠ JsNum.nan := by
  obtain ⟨s1, hf, hp⟩ := frames_check hypotQ
    (fun s => decide (s.cities.length = 2 ∧ entry s.pheromone 0 1 = JsNum.fin (32007 / 40)))
    (show (frames hypotQ MAX_STEPS_PER_FRAME halfDraws 40 startTwo).map _ = some true by decide!)
  have hreach : Reachable hypotQ s1 :=
    reachable_frames hypotQ validDraws_halfDraws 40 _ s1 (Reachable.init _ (by decide)) hf
  obtain ⟨hn, he⟩ := of_decide_eq_true hp
  have h := (pheromone_symmetric hypotQ).1 s1 hreach
  exact ⟨s1, hreach, he, h.1 0 1, h.2 0 1 (by omega) (by omega)⟩

end Symmetry

/-! ## Accumulated tour length -/

section Length

variable (hypot : ℚ → ℚ → ℚ)

theorem pathSum_congr (cities : List City) {p q : List ℕ} {m : ℕ}
    (h : ∀ k, k ≤ m → p.getD k 0 = q.getD k 0) :
    pathSum hypot cities p m = pathSum hypot cities q m := by
  unfold pathSum
  congr 1
  apply List.map_congr_left
  intro k hk
  have hk1 := List.mem_range.mp hk
  rw [h k (by omega), h (k + 1) (by omega)]

theorem pathSum_succ (cities : List City) (p : List ℕ) (m : ℕ) :
    pathSum hypot cities p (m + 1) =
      pathSum hypot cities p m +
        distance hypot (cityAt cities (p.getD m 0)) (cityAt cities (p.getD (m + 1) 0)) := by
  unfold pathSum
  rw [List.range_succ, List.map_append, List.sum_append]
  simp

theorem getD_append_left (p : List ℕ) (x k : ℕ) (hk : k < p.length) :
    (p ++ [x]).getD k 0 = p.getD k 0 := by
  simp only [List.getD_eq_getElem?_getD]
  rw [List.getElem?_append_left hk]

theorem getD_append_length (p : List ℕ) (x : ℕ) : (p ++ [x]).getD p.length 0 = x := by
  simp only [List.getD_eq_getElem?_getD]
  simp

/-- Appending a city to a non-empty path adds the distance from its last city. -/
theorem pathSum_append (cities : List City) (p : List ℕ) (x : ℕ) (h1 : 1 ≤ p.length) :
    pathSum hypot cities (p ++ [x]) ((p ++ [x]).length - 1) =
      pathSum hypot cities p (p.length - 1) +
        distance hypot (cityAt cities (p.getD (p.length - 1) 0)) (cityAt cities x) := by
  obtain ⟨m, hm⟩ : ∃ m, p.length = m + 1 := ⟨p.length - 1, by omega⟩
  simp only [List.length_append, List.length_singleton, hm, Nat.add_sub_cancel]
  rw [pathSum_succ]
  have e1 : pathSum hypot cities (p ++ [x]) m = pathSum hypot cities p m :=
    pathSum_congr hypot cities (fun k hk => getD_append_left p x k (by omega))
  have e2 : (p ++ [x]).getD m 0 = p.getD m 0 := getD_append_left p x m (by omega)
  have e3 : (p ++ [x]).getD (m + 1) 0 = x := by rw [← hm]; exact getD_append_length p x
  rw [e1, e2, e3]

theorem openLength_initAnt {n : ℕ} (cities : List City) {ant : Ant} (rnd : Draws)
    (h : OpenLength hypot cities ant) : OpenLength hypot cities (initAnt n ant rnd).1 := by
  by_cases h0 : ant.path.length = 0
  · rw [initAnt_of_empty h0]
    simp [OpenLength, pathSum]
  · rw [initAnt_of_nonempty h0]
    exact h

theorem openLength_takeStep {B steps : ℕ} {s : State} {ant : Ant} (rnd : Draws)
    (h1 : 1 ≤ ant.path.length) (h : OpenLength hypot s.cities ant) :
    OpenLength hypot s.cities (takeStep hypot B steps s ant rnd).1 := by
  by_cases hlt : ant.path.length < s.cities.length
  · rcases hsel : selectNextCity hypot s ant (ant.path.getD (ant.path.length - 1) 0) rnd
      with ⟨_ | next, rnd1⟩
    · rw [takeStep_of_none hypot hlt hsel]; exact h
    · rw [takeStep_of_some hypot hlt hsel]
      unfold OpenLength at h ⊢
      simp only
      rw [pathSum_append hypot s.cities ant.path next h1, h]
  · rw [takeStep_of_not_lt hypot hlt]; exact h

theorem openLength_steppedAnt (B steps : ℕ) {s : State} (hn : 1 ≤ s.cities.length) {ant0 : Ant}
    (rnd : Draws) (hlen : ant0.path.length ≤ s.cities.length)
    (h : OpenLength hypot s.cities ant0) :
    OpenLength hypot s.cities (steppedAnt hypot B steps s ant0 rnd).1 := by
  unfold steppedAnt
  exact openLength_takeStep hypot _ (initAnt_length hn rnd hlen).1
    (openLength_initAnt hypot s.cities rnd h)

theorem openLength_idle (cities : List City) : OpenLength hypot cities ⟨[], [], 0⟩ := by
  simp [OpenLength, pathSum]

theorem distExact_set {s : State} {ants : List Ant} {cur : ℕ} (a : Ant) (hd : DistExact hypot s)
    (ha : (cur = s.currentAntIndex + 1 →
            a.path.length = s.cities.length ∧ ClosedLength hypot s.cities a) ∧
          (cur = s.currentAntIndex →
            a.path.length < s.cities.length ∧ OpenLength hypot s.cities a))
    (hcur : cur = s.currentAntIndex + 1 ∨ cur = s.currentAntIndex)
    (hants : ants = s.ants.set s.currentAntIndex a) (idx : ℕ) (ant : Ant)
    (hget : ants.get? idx = some ant) :
    (idx < cur → ant.path.length = s.cities.length ∧ ClosedLength hypot s.cities ant) ∧
    (cur ≤ idx → ant.path.length < s.cities.length ∧ OpenLength hypot s.cities ant) := by
  rw [hants, List.get?_eq_getElem?, List.getElem?_set] at hget
  by_cases hidx : s.currentAntIndex = idx
  · rw [if_pos hidx] at hget
    split at hget
    · simp only [Option.some.injEq] at hget
      subst hget
      refine ⟨fun h => ha.1 (by omega), fun h => ha.2 (by omega)⟩
    · exact absurd hget (by simp)
  · rw [if_neg hidx, ← List.get?_eq_getElem?] at hget
    have := hd idx ant hget
    exact ⟨fun h => this.1 (by omega), fun h => this.2 (by omega)⟩

/-- A loop iteration keeps the accumulated lengths exact. -/
theorem iteration_distExact {B steps : ℕ} {s : State} {rnd : Draws} {s1 : State} {steps1 : ℕ}
    {rnd1 : Draws} (hn : 1 ≤ s.cities.length) (hd : DistExact hypot s)
    (h : iteration hypot B steps s rnd = some (s1, steps1, rnd1)) : DistExact hypot s1 := by
  obtain ⟨s3, steps3, hadv, h1, -⟩ := iteration_some hypot h
  obtain ⟨ant0, hget, h3, -, -⟩ := advanceAnt_some hypot hadv
  have h0 := (hd _ ant0 hget).2 (le_refl _)
  obtain ⟨hp1, hp2, -⟩ := steppedAnt_progress hypot B steps hn rnd (le_of_lt h0.1)
  have hopen := openLength_steppedAnt hypot B steps hn rnd (le_of_lt h0.1) h0.2
  have hd3 : DistExact hypot s3 ∧ s3.cities = s.cities := by
    by_cases hdone : (steppedAnt hypot B steps s ant0 rnd).1.path.length = s.cities.length
    · rw [completeTour_of_done hypot hdone] at h3
      refine ⟨?_, by rw [h3]⟩
      intro idx ant hg
      rw [h3] at hg ⊢
      simp only at hg ⊢
      refine distExact_set hypot
        ⟨(steppedAnt hypot B steps s ant0 rnd).1.path,
          (steppedAnt hypot B steps s ant0 rnd).1.visited,
          tourDist hypot s (steppedAnt hypot B steps s ant0 rnd).1⟩
        hd ⟨fun _ => ⟨hdone, ?_⟩, fun e => absurd e (by omega)⟩
        (Or.inl rfl) rfl idx ant hg
      unfold ClosedLength tourDist
      unfold OpenLength at hopen
      simp only
      rw [hopen, hdone]
    · rw [completeTour_of_not_done hypot hdone] at h3
      refine ⟨?_, by rw [h3]⟩
      intro idx ant hg
      rw [h3] at hg ⊢
      simp only at hg ⊢
      exact distExact_set hypot (steppedAnt hypot B steps s ant0 rnd).1 hd
        ⟨fun e => absurd e (by omega), fun _ => ⟨lt_of_le_of_ne hp2 hdone, hopen⟩⟩
        (Or.inr rfl) rfl idx ant hg
  by_cases hend : s3.ants.length ≤ s3.currentAntIndex
  · rw [endCycle_of_le hend] at h1
    rw [h1]
    intro idx ant hg
    simp only [updatePheromones, List.get?_eq_getElem?, List.getElem?_map,
      Option.map_eq_some'] at hg ⊢
    obtain ⟨_, _, rfl⟩ := hg
    refine ⟨fun h => absurd h (by omega), fun _ => ⟨?_, openLength_idle hypot _⟩⟩
    rw [hd3.2]
    exact hn
  · rw [endCycle_of_lt (not_le.mp hend)] at h1
    rw [h1]
    exact hd3.1

theorem distExact_of_reachable {s : State} (h : Reachable hypot s) :
    2 ≤ s.cities.length ∧ DistExact hypot s := by
  refine reachable_invariant hypot (fun t => 2 ≤ t.cities.length ∧ DistExact hypot t) ?_ ?_ s h
  · intro s0 h0
    rw [startClick_eq h0]
    refine ⟨h0, ?_⟩
    intro idx ant hg
    have hmem : ant ∈ List.replicate (max 20 (s0.cities.length * 20)) (Ant.mk [] [] 0) :=
      List.get?_mem hg
    rw [List.eq_of_mem_replicate hmem]
    refine ⟨fun hlt => absurd hlt (Nat.not_lt_zero _), fun _ => ⟨?_, openLength_idle hypot _⟩⟩
    show 0 < s0.cities.length
    omega
  · intro B steps s rnd s1 steps1 rnd1 _ hP hit
    exact ⟨by rw [(iteration_fields hypot hit).1]; exact hP.1,
      iteration_distExact hypot (by omega) hP.2 hit⟩

/-- C4. In every reachable state, an ant that is still touring (its path has
`m` cities, `1 ≤ m < n`) has `dist` equal to the sum of
`distance(cities[path[k]], cities[path[k+1]])` for `k` from 0 to `m - 2`, with
no closing edge; an ant below the cursor has a path of `n` cities and `dist`
equal to that sum for `k` from 0 to `n - 2` plus
`distance(cities[path[n-1]], cities[path[0]])`, once; and the ants with a path
of `n` cities are exactly those below the cursor. -/
theorem dist_exact (s : State) (h : Reachable hypot s) (idx : ℕ) (ant : Ant)
    (hget : s.ants.get? idx = some ant) :
    (1 ≤ ant.path.length → ant.path.length < s.cities.length →
      ant.dist = pathSum hypot s.cities ant.path (ant.path.length - 1)) ∧
    (ant.path.length = s.cities.length → idx < s.currentAntIndex →
      ant.dist = pathSum hypot s.cities ant.path (s.cities.length - 1)
        + distance hypot (cityAt s.cities (ant.path.getD (s.cities.length - 1) 0))
            (cityAt s.cities (ant.path.getD 0 0))) ∧
    (ant.path.length = s.cities.length ↔ idx < s.currentAntIndex) := by
  have hd := (distExact_of_reachable hypot h).2 idx ant hget
  have hiff : ant.path.length = s.cities.length ↔ idx < s.currentAntIndex := by
    constructor
    · intro hlen
      by_contra hc
      have := (hd.2 (not_lt.mp hc)).1
      omega
    · intro hlt
      exact (hd.1 hlt).1
  refine ⟨fun _ hlt => ?_, fun _ hlt => (hd.1 hlt).2, hiff⟩
  have hc : s.currentAntIndex ≤ idx := by
    by_contra hc
    have := (hd.1 (not_le.mp hc)).1
    omega
  exact (hd.2 hc).2

/-- An instance of C4: after the first frame on `twoCities` ant 0 is below the
cursor with the tour `[1, 0]`, and its `dist`, 10, is the distance from city 1
to city 0 plus the closing edge back to city 1. -/
theorem dist_exact_witness :
    ∃ (s : State) (ant : Ant), Reachable hypotQ s ∧ s.ants.get? 0 = some ant ∧
      ant.path.length = s.cities.length ∧ 0 < s.currentAntIndex ∧
      ant.path = [1, 0] ∧ ant.dist = 10 ∧
      ant.dist = pathSum hypotQ s.cities ant.path (s.cities.length - 1)
        + distance hypotQ (cityAt s.cities (ant.path.getD (s.cities.length - 1) 0))
            (cityAt s.cities (ant.path.getD 0 0)) := by
  obtain ⟨s1, hf, hp⟩ := frames_check hypotQ
    (fun s => decide (s.cities.length = 2 ∧ 0 < s.currentAntIndex ∧
      (s.ants.get? 0).map (fun a => (a.path, a.dist)) = some ([1, 0], 10)))
    (show (frames hypotQ MAX_STEPS_PER_FRAME halfDraws 1 startTwo).map _ = some true by decide!)
  have hreach : Reachable hypotQ s1 :=
    reachable_frames hypotQ validDraws_halfDraws 1 _ s1 (Reachable.init _ (by decide)) hf
  obtain ⟨hn, hcur, hant⟩ := of_decide_eq_true hp
  obtain ⟨ant, hget, hpd⟩ := Option.map_eq_some'.mp hant
  simp only [Prod.mk.injEq] at hpd
  have hlen : ant.path.length = s1.cities.length := by rw [hpd.1, hn]; rfl
  exact ⟨s1, ant, hreach, hget, hlen, hcur, hpd.1, hpd.2,
    (dist_exact hypotQ s1 hreach 0 ant hget).2.1 hlen hcur⟩

end Length

/-! ## Population, budget and start -/

section Population

variable (hypot : ℚ → ℚ → ℚ)

theorem runACO_ants_length {B : ℕ} {s : State} {rnd : Draws} {s1 : State} {rnd1 : Draws}
    (h : runACO hypot B s rnd = some (s1, rnd1)) : s1.ants.length = s.ants.length :=
  runACO_invariant hypot (fun t => t.ants.length = s.ants.length) (fun _ => True)
    (fun _ _ => trivial) B
    (fun _ _ _ _ _ _ _ hP hit => (iteration_fields hypot hit).2.2.1.trans hP)
    s rnd s1 rnd1 trivial rfl h

/-- C11. After `initACO` on `n` cities the population has exactly
`max(20, 20 * n)` ants, every ant is idle (`path = []`, `visited = []`,
`dist = 0`) and `currentAntIndex` is 0; the number of ants is then unchanged by
every invocation of `runACO` and by `updatePheromones`. -/
theorem population_fixed :
    (∀ s : State,
      (initACO s).ants.length = max 20 (20 * s.cities.length) ∧
      (∀ ant ∈ (initACO s).ants, ant = ⟨[], [], 0⟩) ∧
      (initACO s).currentAntIndex = 0) ∧
    (∀ (B : ℕ) (s : State) (rnd : Draws) (s1 : State) (rnd1 : Draws),
      runACO hypot B s rnd = some (s1, rnd1) → s1.ants.length = s.ants.length) ∧
    (∀ s : State, (updatePheromones s).ants.length = s.ants.length) := by
  refine ⟨fun s => ⟨?_, ?_, rfl⟩, fun B s rnd s1 rnd1 h => runACO_ants_length hypot h,
    fun s => (updatePheromones_best s).2.2.2.2.2⟩
  · simp only [initACO, List.length_replicate]
    rw [Nat.mul_comm]
  · intro ant ha
    exact List.eq_of_mem_replicate ha

/-- An instance of C11: 40 ants for two cities, still 40 after a frame. -/
theorem population_fixed_witness :
    startTwo.ants.length = 40 ∧
    ∃ s1 rnd1, runACO hypotQ 2 startTwo halfDraws = some (s1, rnd1) ∧ s1.ants.length = 40 := by
  have hsome : (runACO hypotQ 2 startTwo halfDraws).isSome = true := by decide!
  obtain ⟨⟨s1, rnd1⟩, hrun⟩ := Option.isSome_iff_exists.mp hsome
  have h := (population_fixed hypotQ).2.1 2 startTwo halfDraws s1 rnd1 hrun
  exact ⟨by decide, s1, rnd1, hrun, h.trans (by decide)⟩

/-- C14. With fewer than two cities the start button does nothing: no
initialisation, no run, and `pheromone`, `ants`, `currentAntIndex`,
`bestPath`, `bestDist` and `running` are exactly as they were. -/
theorem start_rejected (B : ℕ) (s : State) (rnd : Draws) (h : s.cities.length < 2) :
    startBtn_onclick hypot B s rnd = some (s, rnd) ∧ startClick s = s := by
  unfold startBtn_onclick startClick
  simp only [h, if_true, and_self]

/-- An instance of C14: the start button on a single city. -/
theorem start_rejected_witness :
    ({ pageLoad with cities := [⟨1, 1⟩] } : State).cities.length < 2 ∧
    startBtn_onclick hypotQ 2 { pageLoad with cities := [⟨1, 1⟩] } halfDraws
      = some ({ pageLoad with cities := [⟨1, 1⟩] }, halfDraws) :=
  ⟨by decide,
    (start_rejected hypotQ 2 { pageLoad with cities := [⟨1, 1⟩] } halfDraws (by decide)).1⟩

end Population

section Bounded

variable (hypot : ℚ → ℚ → ℚ)

/-- More fuel does not change the result of a loop that has one. -/
theorem runLoop_fuel_mono (B : ℕ) :
    ∀ (fuel steps : ℕ) (s : State) (rnd : Draws) (r : State × Draws),
      runLoop hypot B fuel steps s rnd = some r →
      ∀ fuel1, fuel ≤ fuel1 → runLoop hypot B fuel1 steps s rnd = some r := by
  intro fuel
  induction fuel with
  | zero =>
    intro steps s rnd r h fuel1 _
    unfold runLoop at h
    split at h
    · exact absurd h (by simp)
    · rename_i hB
      unfold runLoop
      rw [if_neg hB]
      exact h
  | succ fuel ih =>
    intro steps s rnd r h fuel1 hle
    obtain ⟨fuel2, rfl⟩ : ∃ fuel2, fuel1 = fuel2 + 1 := ⟨fuel1 - 1, by omega⟩
    unfold runLoop at h ⊢
    by_cases hB : steps < B
    · rw [if_pos hB] at h ⊢
      simp only at h ⊢
      cases hit : iteration hypot B steps s rnd with
      | none => rw [hit] at h; exact absurd h (by simp)
      | some t =>
        obtain ⟨s1, steps1, rnd1⟩ := t
        rw [hit] at h
        simp only at h ⊢
        exact ih steps1 s1 rnd1 r h fuel2 (by omega)
    · rw [if_neg hB] at h ⊢
      exact h

theorem initAnt_path (n : ℕ) (ant : Ant) (rnd : Draws) :
    (initAnt n ant rnd).1.path = ant.path ∨
      (ant.path = [] ∧ (initAnt n ant rnd).1.path = [((rnd 0) * n).floor.toNat]) := by
  by_cases h0 : ant.path.length = 0
  · rw [initAnt_of_empty h0]
    exact Or.inr ⟨List.length_eq_zero.mp h0, rfl⟩
  · rw [initAnt_of_nonempty h0]
    exact Or.inl rfl

theorem takeStep_path (B steps : ℕ) (s : State) (ant : Ant) (rnd : Draws) :
    (takeStep hypot B steps s ant rnd).1.path = ant.path ∨
      ∃ next, (selectNextCity hypot s ant (ant.path.getD (ant.path.length - 1) 0) rnd).1 = some next ∧
        (takeStep hypot B steps s ant rnd).1.path = ant.path ++ [next] := by
  by_cases hlt : ant.path.length < s.cities.length
  · rcases hsel : selectNextCity hypot s ant (ant.path.getD (ant.path.length - 1) 0) rnd
      with ⟨_ | next, rnd1⟩
    · rw [takeStep_of_none hypot hlt hsel]; exact Or.inl rfl
    · rw [takeStep_of_some hypot hlt hsel]; exact Or.inr ⟨next, rfl, rfl⟩
  · rw [takeStep_of_not_lt hypot hlt]; exact Or.inl rfl

/-- The ants after parts 1 to 3 of the loop body: only the ant under the
cursor is written. -/
theorem advanceAnt_ants {B steps : ℕ} {s : State} {rnd : Draws} {s3 : State} {steps3 : ℕ}
    {rnd2 : Draws} (h : advanceAnt hypot B steps s rnd = some (s3, steps3, rnd2)) :
    ∃ ant0 ant2, s.ants.get? s.currentAntIndex = some ant0 ∧
      s3.ants = s.ants.set s.currentAntIndex ant2 ∧
      ant2.path = (steppedAnt hypot B steps s ant0 rnd).1.path := by
  obtain ⟨ant0, hget, h3, -, -⟩ := advanceAnt_some hypot h
  by_cases hdone : (steppedAnt hypot B steps s ant0 rnd).1.path.length = s.cities.length
  · rw [completeTour_of_done hypot hdone] at h3
    exact ⟨ant0, ⟨(steppedAnt hypot B steps s ant0 rnd).1.path,
      (steppedAnt hypot B steps s ant0 rnd).1.visited,
      tourDist hypot s (steppedAnt hypot B steps s ant0 rnd).1⟩, hget, by rw [h3], rfl⟩
  · rw [completeTour_of_not_done hypot hdone] at h3
    exact ⟨ant0, (steppedAnt hypot B steps s ant0 rnd).1, hget, by rw [h3], rfl⟩

/-- C13. In every reachable state and for every budget `B`: the loop of
`runACO` ends within `B` iterations (more fuel gives the same result); each
iteration writes only the ant under the cursor, whose path is, after the
initialisation of an idle ant, either left as it is or extended by the one city
that `selectNextCity` returned, and at the end of a cycle resets the ants; with
budget 0 no iteration runs and the state and the draws are unchanged. -/
theorem bounded_work (s : State) (hr : Reachable hypot s) (B : ℕ) (rnd : Draws) :
    (∃ r, runLoop hypot B B 0 s rnd = some r ∧
      ∀ fuel, B ≤ fuel → runLoop hypot B fuel 0 s rnd = some r) ∧
    (∀ steps s1 steps1 rnd1, iteration hypot B steps s rnd = some (s1, steps1, rnd1) →
      ∃ ant0 ant2, s.ants.get? s.currentAntIndex = some ant0 ∧
        (ant2.path = (initAnt s.cities.length ant0 rnd).1.path ∨
          ∃ next, ant2.path = (initAnt s.cities.length ant0 rnd).1.path ++ [next]) ∧
        (s1.ants = s.ants.set s.currentAntIndex ant2 ∨
          s1.ants = (s.ants.set s.currentAntIndex ant2).map fun _ => ⟨[], [], 0⟩)) ∧
    runACO hypot 0 s rnd = some (s, rnd) := by
  refine ⟨?_, ?_, ?_⟩
  · obtain ⟨r, h⟩ := runLoop_total hypot B B 0 s rnd (ready_of_reachable hypot hr) (by omega)
    exact ⟨r, h, fun fuel hf => runLoop_fuel_mono hypot B B 0 s rnd r h fuel hf⟩
  · intro steps s1 steps1 rnd1 hit
    obtain ⟨s3, steps3, hadv, h1, -⟩ := iteration_some hypot hit
    obtain ⟨ant0, ant2, hget, hants, hpath⟩ := advanceAnt_ants hypot hadv
    refine ⟨ant0, ant2, hget, ?_, ?_⟩
    · rw [hpath]
      unfold steppedAnt
      rcases takeStep_path hypot B steps s (initAnt s.cities.length ant0 rnd).1
        (initAnt s.cities.length ant0 rnd).2 with e | ⟨next, -, e⟩
      · exact Or.inl e
      · exact Or.inr ⟨next, e⟩
    · by_cases hend : s3.ants.length ≤ s3.currentAntIndex
      · rw [endCycle_of_le hend] at h1
        right
        rw [h1, ← hants]
        rfl
      · rw [endCycle_of_lt (not_le.mp hend)] at h1
        left
        rw [h1, hants]
  · unfold runACO
    split
    · unfold runLoop
      rw [if_neg (Nat.lt_irrefl 0)]
    · rfl

/-- An instance of C13: a frame with budget 3 on `twoCities` ends within 3
iterations, and a frame with budget 0 changes nothing. -/
theorem bounded_work_witness :
    (∃ r, runLoop hypotQ 3 3 0 startTwo halfDraws = some r) ∧
    runACO hypotQ 0 startTwo halfDraws = some (startTwo, halfDraws) := by
  have h := bounded_work hypotQ startTwo (Reachable.init _ (by decide)) 3 halfDraws
  have h0 := bounded_work hypotQ startTwo (Reachable.init _ (by decide)) 0 halfDraws
  obtain ⟨r, hr, -⟩ := h.1
  exact ⟨⟨r, hr⟩, h0.2.2⟩

end Bounded

section Budget

variable (hypot : ℚ → ℚ → ℚ)

theorem takeStep_indep (B steps B1 steps1 : ℕ) (s : State) (ant : Ant) (rnd : Draws) :
    (takeStep hypot B steps s ant rnd).1 = (takeStep hypot B1 steps1 s ant rnd).1 ∧
    (takeStep hypot B steps s ant rnd).2.2 = (takeStep hypot B1 steps1 s ant rnd).2.2 := by
  by_cases hlt : ant.path.length < s.cities.length
  · rcases hsel : selectNextCity hypot s ant (ant.path.getD (ant.path.length - 1) 0) rnd
      with ⟨_ | next, rnd1⟩
    · rw [takeStep_of_none hypot hlt hsel, takeStep_of_none hypot hlt hsel]
      exact ⟨rfl, rfl⟩
    · rw [takeStep_of_some hypot hlt hsel, takeStep_of_some hypot hlt hsel]
      exact ⟨rfl, rfl⟩
  · rw [takeStep_of_not_lt hypot hlt, takeStep_of_not_lt hypot hlt]
    exact ⟨rfl, rfl⟩

theorem steppedAnt_indep (B steps B1 steps1 : ℕ) (s : State) (ant0 : Ant) (rnd : Draws) :
    (steppedAnt hypot B steps s ant0 rnd).1 = (steppedAnt hypot B1 steps1 s ant0 rnd).1 ∧
    (steppedAnt hypot B steps s ant0 rnd).2.2 = (steppedAnt hypot B1 steps1 s ant0 rnd).2.2 := by
  unfold steppedAnt
  exact takeStep_indep hypot B steps B1 steps1 s _ _

theorem completeTour_indep (steps steps1 : ℕ) (s : State) (idx : ℕ) (ant : Ant) :
    (completeTour hypot steps s idx ant).1 = (completeTour hypot steps1 s idx ant).1 := by
  by_cases h : ant.path.length = s.cities.length
  · rw [completeTour_of_done hypot h, completeTour_of_done hypot h]
  · rw [completeTour_of_not_done hypot h, completeTour_of_not_done hypot h]

theorem endCycle_indep (B steps B1 steps1 : ℕ) (s : State) :
    (endCycle B steps s).1 = (endCycle B1 steps1 s).1 := by
  by_cases h : s.ants.length ≤ s.currentAntIndex
  · rw [endCycle_of_le h, endCycle_of_le h]
  · rw [endCycle_of_lt (not_le.mp h), endCycle_of_lt (not_le.mp h)]

/-- The state and the draws left by a loop iteration do not depend on the
budget nor on the steps already taken. -/
theorem iteration_indep {B steps : ℕ} {s : State} {rnd : Draws} {s1 : State} {steps1 : ℕ}
    {rnd1 : Draws} (h : iteration hypot B steps s rnd = some (s1, steps1, rnd1))
    (B1 steps0 : ℕ) :
    ∃ steps2, iteration hypot B1 steps0 s rnd = some (s1, steps2, rnd1) := by
  obtain ⟨s3, steps3, hadv, h1, -⟩ := iteration_some hypot h
  obtain ⟨ant0, hget, h3, -, h5⟩ := advanceAnt_some hypot hadv
  have hadv1 := advanceAnt_eq hypot B1 steps0 s rnd ant0 hget
  have hit1 := iteration_eq hypot B1 steps0 s rnd _ _ _ hadv1
  have e1 := steppedAnt_indep hypot B steps B1 steps0 s ant0 rnd
  have e2 : s3 = (completeTour hypot (steppedAnt hypot B1 steps0 s ant0 rnd).2.1 s
      s.currentAntIndex (steppedAnt hypot B1 steps0 s ant0 rnd).1).1 := by
    rw [h3, e1.1]
    exact completeTour_indep hypot _ _ s _ _
  refine ⟨(endCycle B1
    (completeTour hypot (steppedAnt hypot B1 steps0 s ant0 rnd).2.1 s
      s.currentAntIndex (steppedAnt hypot B1 steps0 s ant0 rnd).1).2
    (completeTour hypot (steppedAnt hypot B1 steps0 s ant0 rnd).2.1 s
      s.currentAntIndex (steppedAnt hypot B1 steps0 s ant0 rnd).1).1).2, ?_⟩
  rw [hit1, h1, h5, e1.2, e2]
  rw [endCycle_indep B steps3 B1
    (completeTour hypot (steppedAnt hypot B1 steps0 s ant0 rnd).2.1 s
      s.currentAntIndex (steppedAnt hypot B1 steps0 s ant0 rnd).1).2]

/-- With budget 1 an invocation of `runACO` in a `Ready` state is exactly one
loop iteration. -/
theorem runACO_one {B steps : ℕ} {s : State} {rnd : Draws} {s1 : State} {steps1 : ℕ}
    {rnd1 : Draws} (hr : Ready s) (hrun : s.running = true)
    (h : iteration hypot B steps s rnd = some (s1, steps1, rnd1)) :
    runACO hypot 1 s rnd = some (s1, rnd1) := by
  obtain ⟨steps2, h1⟩ := iteration_indep hypot h 1 0
  have hpos := (iteration_ready hypot hr h1).2 (by decide)
  unfold runACO
  rw [if_pos hrun]
  unfold runLoop
  rw [if_pos (by decide)]
  simp only [h1]
  unfold runLoop
  rw [if_neg (by omega)]

theorem running_of_reachable {s : State} (h : Reachable hypot s) : s.running = true := by
  refine reachable_invariant hypot (fun t => t.running = true) ?_ ?_ s h
  · intro s0 h0
    rw [startClick_eq h0]
  · intro B steps s rnd s1 steps1 rnd1 _ hP hit
    rw [(iteration_fields hypot hit).2.1]
    exact hP

/-- The loop with budget `B` is a sequence of invocations with budget 1. -/
theorem runLoop_as_invocations (B : ℕ) :
    ∀ (fuel steps : ℕ) (s : State) (rnd : Draws) (s1 : State) (rnd1 : Draws),
      Ready s → s.running = true → steps < B →
      runLoop hypot B fuel steps s rnd = some (s1, rnd1) →
      ∃ k, 1 ≤ k ∧ k ≤ B - steps ∧ invocations hypot 1 k s rnd = some (s1, rnd1) := by
  intro fuel
  induction fuel with
  | zero =>
    intro steps s rnd s1 rnd1 _ _ hB h
    unfold runLoop at h
    rw [if_pos hB] at h
    exact absurd h (by simp)
  | succ fuel ih =>
    intro steps s rnd s1 rnd1 hr hrun hB h
    unfold runLoop at h
    rw [if_pos hB] at h
    simp only at h
    cases hit : iteration hypot B steps s rnd with
    | none => rw [hit] at h; exact absurd h (by simp)
    | some t =>
      obtain ⟨s2, steps2, rnd2⟩ := t
      rw [hit] at h
      simp only at h
      have hone := runACO_one hypot hr hrun hit
      have hr2 := iteration_ready hypot hr hit
      have hrun2 : s2.running = true := by rw [(iteration_fields hypot hit).2.1]; exact hrun
      have hgt := hr2.2 hB
      by_cases hB2 : steps2 < B
      · obtain ⟨k, hk1, hk2, hk⟩ := ih steps2 s2 rnd2 s1 rnd1 hr2.1 hrun2 hB2 h
        refine ⟨k + 1, by omega, by omega, ?_⟩
        unfold invocations
        simp only [hone]
        exact hk
      · unfold runLoop at h
        rw [if_neg hB2] at h
        refine ⟨1, le_refl _, by omega, ?_⟩
        unfold invocations
        simp only [hone]
        unfold invocations
        exact h

/-- C12. The step budget has no semantic effect: in every reachable state,
for every budget `B ≥ 1` and every stream of draws, the state and the remaining
draws after one invocation of `runACO` with budget `B` are those after `k`
consecutive invocations with budget 1 from the same state and draws, for some
`k` with `1 ≤ k ≤ B`. -/
theorem budget_no_effect (s : State) (hr : Reachable hypot s) (B : ℕ) (hB : 1 ≤ B)
    (rnd : Draws) :
    ∃ k s1 rnd1, 1 ≤ k ∧ k ≤ B ∧ runACO hypot B s rnd = some (s1, rnd1) ∧
      invocations hypot 1 k s rnd = some (s1, rnd1) := by
  have hready := ready_of_reachable hypot hr
  have hrun := running_of_reachable hypot hr
  obtain ⟨⟨s1, rnd1⟩, h⟩ := runACO_total hypot hready B rnd
  have hloop : runLoop hypot B B 0 s rnd = some (s1, rnd1) := by
    unfold runACO at h
    rw [if_pos hrun] at h
    exact h
  obtain ⟨k, hk1, hk2, hk⟩ :=
    runLoop_as_invocations hypot B B 0 s rnd s1 rnd1 hready hrun (by omega) hloop
  exact ⟨k, s1, rnd1, hk1, by omega, h, hk⟩

/-- An instance of C12: one frame with budget 5 from the start on `twoCities`
is a number of frames with budget 1. -/
theorem budget_no_effect_witness :
    ∃ k s1 rnd1, 1 ≤ k ∧ k ≤ 5 ∧ runACO hypotQ 5 startTwo halfDraws = some (s1, rnd1) ∧
      invocations hypotQ 1 k startTwo halfDraws = some (s1, rnd1) :=
  budget_no_effect hypotQ startTwo (Reachable.init _ (by decide)) 5 (by decide) halfDraws

end Budget

section Stall

variable (hypot : ℚ → ℚ → ℚ)

theorem set_of_get? {α : Type} : ∀ (l : List α) (i : ℕ) (a : α), l.get? i = some a → l.set i a = l
  | [], _, _, h => by simp at h
  | x :: xs, 0, a, h => by
    simp only [List.get?_cons_zero, Option.some.injEq] at h
    rw [List.set_cons_zero, h]
  | x :: xs, i + 1, a, h => by
    simp only [List.get?_cons_succ] at h
    rw [List.set_cons_succ, set_of_get? xs i a h]

theorem selectNextCity_of_zero (s : State) (ant : Ant) (i : ℕ) (rnd : Draws)
    (h : scoreSum hypot s ant i = JsNum.fin 0) :
    selectNextCity hypot s ant i rnd = (none, rnd) := by
  unfold selectNextCity
  simp only [h, JsNum.isZero, decide_True, if_true]

/-- An iteration in which a touring ant gets no next city changes nothing and
sets `stepsTaken` to the budget. -/
theorem iteration_of_stall (B steps : ℕ) (s : State) (rnd : Draws) (ant0 : Ant)
    (hget : s.ants.get? s.currentAntIndex = some ant0)
    (h1 : 1 ≤ ant0.path.length) (hlt : ant0.path.length < s.cities.length)
    (hnone : (selectNextCity hypot s ant0 (ant0.path.getD (ant0.path.length - 1) 0) rnd).1
      = none) :
    iteration hypot B steps s rnd = some (s, B,
      (selectNextCity hypot s ant0 (ant0.path.getD (ant0.path.length - 1) 0) rnd).2) := by
  have hadv := advanceAnt_eq hypot B steps s rnd ant0 hget
  have hst : steppedAnt hypot B steps s ant0 rnd = (ant0, B,
      (selectNextCity hypot s ant0 (ant0.path.getD (ant0.path.length - 1) 0) rnd).2) := by
    unfold steppedAnt
    rw [initAnt_of_nonempty (by omega)]
    exact takeStep_of_none hypot hlt (Prod.ext hnone rfl)
  rw [hst] at hadv
  simp only at hadv
  rw [completeTour_of_not_done hypot (by omega), set_of_get? _ _ _ hget] at hadv
  have hcur : s.currentAntIndex < s.ants.length := by
    obtain ⟨h, -⟩ := List.get?_eq_some.mp hget
    exact h
  have hit := iteration_eq hypot B steps s rnd _ _ _ hadv
  rw [endCycle_of_lt hcur] at hit
  exact hit

/-- C16. `selectNextCity` returns `null`, without a draw, when the sum of the
scores is 0; and when it returns `null` for a touring ant under the cursor, the
loop iteration leaves the whole state as it was (that ant's `path`, `visited`
and `dist`, the cursor, the pheromone matrix, `bestPath` and `bestDist`) and
the loop ends with this iteration, whatever budget remains. -/
theorem stall_no_progress (B steps : ℕ) (s : State) (rnd : Draws) (ant0 : Ant)
    (hB : steps < B)
    (hget : s.ants.get? s.currentAntIndex = some ant0)
    (h1 : 1 ≤ ant0.path.length) (hlt : ant0.path.length < s.cities.length) :
    (∀ (ant : Ant) (i : ℕ), scoreSum hypot s ant i = JsNum.fin 0 →
      selectNextCity hypot s ant i rnd = (none, rnd)) ∧
    ((selectNextCity hypot s ant0 (ant0.path.getD (ant0.path.length - 1) 0) rnd).1 = none →
      iteration hypot B steps s rnd = some (s, B,
        (selectNextCity hypot s ant0 (ant0.path.getD (ant0.path.length - 1) 0) rnd).2) ∧
      ∀ fuel, runLoop hypot B (fuel + 1) steps s rnd = some (s,
        (selectNextCity hypot s ant0 (ant0.path.getD (ant0.path.length - 1) 0) rnd).2)) := by
  refine ⟨fun ant i h => selectNextCity_of_zero hypot s ant i rnd h, fun hnone => ?_⟩
  have hit := iteration_of_stall hypot B steps s rnd ant0 hget h1 hlt hnone
  refine ⟨hit, fun fuel => ?_⟩
  unfold runLoop
  rw [if_pos hB]
  simp only [hit]
  unfold runLoop
  rw [if_neg (lt_irrefl B)]

/-- An instance of C16: with all pheromone at 0 the touring ant 0 of `stalled`
gets no city, and a frame with budget 5 returns the state and the draws as
they were after a single iteration. -/
theorem stall_no_progress_witness :
    (0 < 5 ∧ stalled.ants.get? stalled.currentAntIndex = some ⟨[0], [true, false], 0⟩ ∧
      scoreSum hypotQ stalled ⟨[0], [true, false], 0⟩ 0 = JsNum.fin 0) ∧
    iteration hypotQ 5 0 stalled halfDraws = some (stalled, 5, halfDraws) ∧
    runLoop hypotQ 5 5 0 stalled halfDraws = some (stalled, halfDraws) := by
  have h := stall_no_progress hypotQ 5 0 stalled halfDraws ⟨[0], [true, false], 0⟩ (by decide)
    (by decide) (by decide) (by decide)
  have hsum : scoreSum hypotQ stalled ⟨[0], [true, false], 0⟩ 0 = JsNum.fin 0 := by decide!
  have hsel := h.1 ⟨[0], [true, false], 0⟩ 0 hsum
  have hnone : (selectNextCity hypotQ stalled ⟨[0], [true, false], 0⟩
      ((Ant.mk [0] [true, false] 0).path.getD ((Ant.mk [0] [true, false] 0).path.length - 1) 0)
      halfDraws).1 = none := by
    show (selectNextCity hypotQ stalled ⟨[0], [true, false], 0⟩ 0 halfDraws).1 = none
    rw [hsel]
  have h2 := h.2 hnone
  have hd : (selectNextCity hypotQ stalled ⟨[0], [true, false], 0⟩
      ((Ant.mk [0] [true, false] 0).path.getD ((Ant.mk [0] [true, false] 0).path.length - 1) 0)
      halfDraws).2 = halfDraws := by
    show (selectNextCity hypotQ stalled ⟨[0], [true, false], 0⟩ 0 halfDraws).2 = halfDraws
    rw [hsel]
  rw [hd] at h2
  exact ⟨⟨by decide, by decide, hsum⟩, h2.1, h2.2 4⟩

end Stall

section Scores

variable (hypot : ℚ → ℚ → ℚ)

theorem pow_fin (x : ℚ) : ∀ k : ℕ, JsNum.pow (JsNum.fin x) k = JsNum.fin (x ^ k)
  | 0 => by simp [JsNum.pow]
  | 1 => by simp [JsNum.pow]
  | k + 2 => by
    rw [JsNum.pow, pow_fin x (k + 1)]
    simp only [JsNum.mul]
    rw [pow_succ x (k + 1)]

theorem hypotQ_nonneg (x y : ℚ) : 0 ≤ hypotQ x y := Rat.sqrt_nonneg _

theorem distance_nonneg (hpos : ∀ x y, 0 ≤ hypot x y) (a b : City) : 0 ≤ distance hypot a b :=
  hpos _ _

theorem eps_pos : 0 < EPS := by
  unfold EPS
  norm_num

theorem score_of_visited (s : State) (ant : Ant) (i j : ℕ) (h : isVisited ant.visited j = true) :
    score hypot s ant i j = JsNum.fin 0 := by
  unfold score
  rw [if_pos h]

/-- The score of an unvisited city whose pheromone entry is finite, when the
guarded distance is not zero. -/
theorem score_of_unvisited (s : State) (ant : Ant) (i j : ℕ) {t : ℚ}
    (hv : isVisited ant.visited j = false) (he : entry s.pheromone i j = JsNum.fin t)
    (hd : distance hypot (cityAt s.cities i) (cityAt s.cities j) + EPS ≠ 0) :
    score hypot s ant i j =
      JsNum.fin (t ^ ALPHA *
        (1 / (distance hypot (cityAt s.cities i) (cityAt s.cities j) + EPS)) ^ BETA) := by
  unfold score
  rw [if_neg (by rw [hv]; exact Bool.false_ne_true)]
  simp only [he, JsNum.div, hd, if_false, pow_fin, JsNum.mul]

/-- C17. When `Math.hypot` is non-negative, for every pair of cities
(coincident ones and a city paired with itself included) `distance(a, b) ≥ 0`
and the denominator `distance(a, b) + 1e-9` is strictly positive, so that the
division in the score is a division of finite numbers by a non-zero number;
and the score is finite and non-negative whenever the pheromone entry is. -/
theorem epsilon_guard (hpos : ∀ x y, 0 ≤ hypot x y) (a b : City) :
    0 ≤ distance hypot a b ∧
    0 < distance hypot a b + EPS ∧
    JsNum.div (JsNum.fin 1) (JsNum.fin (distance hypot a b + EPS))
      = JsNum.fin (1 / (distance hypot a b + EPS)) ∧
    ∀ (s : State) (ant : Ant) (i j : ℕ), JsNum.FiniteNonneg (entry s.pheromone i j) →
      JsNum.FiniteNonneg (score hypot s ant i j) := by
  have hd := distance_nonneg hypot hpos a b
  have hp : 0 < distance hypot a b + EPS := add_pos_of_nonneg_of_pos hd eps_pos
  refine ⟨hd, hp, ?_, ?_⟩
  · simp only [JsNum.div, ne_of_gt hp, if_false]
  · intro s ant i j hfin
    cases hv : isVisited ant.visited j with
    | true =>
      rw [score_of_visited hypot s ant i j hv]
      exact le_refl (0 : ℚ)
    | false =>
      cases he : entry s.pheromone i j with
      | fin t =>
        rw [he] at hfin
        have hd2 := distance_nonneg hypot hpos (cityAt s.cities i) (cityAt s.cities j)
        have hp2 : 0 < distance hypot (cityAt s.cities i) (cityAt s.cities j) + EPS :=
          add_pos_of_nonneg_of_pos hd2 eps_pos
        rw [score_of_unvisited hypot s ant i j hv he (ne_of_gt hp2)]
        have ht : (0 : ℚ) ≤ t := hfin
        show (0 : ℚ) ≤ _
        positivity
      | pinf => rw [he] at hfin; exact absurd hfin (by simp [JsNum.FiniteNonneg])
      | ninf => rw [he] at hfin; exact absurd hfin (by simp [JsNum.FiniteNonneg])
      | nan => rw [he] at hfin; exact absurd hfin (by simp [JsNum.FiniteNonneg])

/-- An instance of C17: two cities at the same point are at distance 0, the
denominator is `1e-9` and the score of city 1 seen from city 0 after the start
on coincident cities is finite and non-negative. -/
theorem epsilon_guard_witness :
    distance hypotQ ⟨0, 0⟩ ⟨0, 0⟩ = 0 ∧
    0 < distance hypotQ ⟨0, 0⟩ ⟨0, 0⟩ + EPS ∧
    JsNum.div (JsNum.fin 1) (JsNum.fin (distance hypotQ ⟨0, 0⟩ ⟨0, 0⟩ + EPS))
      = JsNum.fin 1000000000 ∧
    JsNum.FiniteNonneg
      (score hypotQ (startClick { pageLoad with cities := coincidentCities })
        ⟨[0], [true, false], 0⟩ 0 1) := by
  have h := epsilon_guard hypotQ hypotQ_nonneg ⟨0, 0⟩ ⟨0, 0⟩
  refine ⟨by decide!, h.2.1, by decide!, ?_⟩
  apply h.2.2.2
  have he : entry (startClick { pageLoad with cities := coincidentCities }).pheromone 0 1
      = JsNum.fin (1 / 4) := by decide!
  rw [he]
  show (0 : ℚ) ≤ 1 / 4
  norm_num

end Scores

/-! ## Roulette wheel selection -/

section Roulette

variable (hypot : ℚ → ℚ → ℚ)

theorem sum_map_fin : ∀ qs : List ℚ, ((qs.map JsNum.fin).sum : JsNum) = JsNum.fin qs.sum
  | [] => rfl
  | q :: qs => by
    rw [List.map_cons, List.sum_cons, List.sum_cons, sum_map_fin qs]
    rfl

/-- On finite scores the roulette loop started with a remainder below their
sum returns the first position at which the running total reaches it. -/
theorem roulette_fin : ∀ (qs : List ℚ) (j0 : ℕ) (r : ℚ), qs ≠ [] → r < qs.sum →
    ∃ k, k < qs.length ∧ roulette (qs.map JsNum.fin) j0 (JsNum.fin r) = some (j0 + k) ∧
      r ≤ (qs.take (k + 1)).sum ∧ ∀ k1, k1 < k → (qs.take (k1 + 1)).sum < r
  | [], _, _, hne, _ => absurd rfl hne
  | q :: qs, j0, r, _, h => by
    by_cases hle : r - q ≤ 0
    · refine ⟨0, by simp, ?_, ?_, ?_⟩
      · simp only [List.map_cons, roulette, JsNum.sub, JsNum.neg, JsNum.add, JsNum.le]
        rw [if_pos (by simp only [decide_eq_true_eq]; linarith)]
        rfl
      · simp only [List.take_succ_cons, List.take_zero, List.sum_cons, List.sum_nil]
        linarith
      · intro k1 hk1
        exact absurd hk1 (Nat.not_lt_zero _)
    · have hlt : r - q < qs.sum := by
        rw [List.sum_cons] at h
        linarith
      have hne : qs ≠ [] := by
        intro hnil
        rw [hnil, List.sum_nil] at hlt
        exact hle (le_of_lt hlt)
      obtain ⟨k, hk, hr, hge, hmin⟩ := roulette_fin qs (j0 + 1) (r - q) hne hlt
      refine ⟨k + 1, by simp only [List.length_cons]; omega, ?_, ?_, ?_⟩
      · simp only [List.map_cons, roulette, JsNum.sub, JsNum.neg, JsNum.add, JsNum.le]
        rw [if_neg (by simp only [decide_eq_true_eq]; intro hc; exact hle (by linarith))]
        have e : r + -q = r - q := by ring
        rw [e, hr]
        congr 1
        omega
      · simp only [List.take_succ_cons, List.sum_cons]
        linarith
      · intro k1 hk1
        cases k1 with
        | zero =>
          simp only [List.take_succ_cons, List.take_zero, List.sum_cons, List.sum_nil]
          linarith
        | succ k2 =>
          have := hmin k2 (by omega)
          simp only [List.take_succ_cons, List.sum_cons]
          linarith

theorem not_finite_add_left {a : JsNum} (b : JsNum) (h : ¬ a.Finite) :
    ¬ (JsNum.add a b).Finite := by
  cases a <;> cases b <;> simp_all [JsNum.add, JsNum.Finite]

/-- The loop that adds the scores of the unvisited cities, from `acc`. -/
theorem scoreFold_not_finite (s : State) (ant : Ant) (i : ℕ) :
    ∀ (js : List ℕ) (acc : JsNum), ¬ acc.Finite →
      ¬ (js.foldl (fun acc j =>
          if isVisited ant.visited j then acc else JsNum.add acc (score hypot s ant i j))
        acc).Finite
  | [], acc, h => h
  | j :: js, acc, h => by
    rw [List.foldl_cons]
    apply scoreFold_not_finite s ant i js
    split
    · exact h
    · exact not_finite_add_left _ h

/-- When the sum of the scores is finite, every score is finite and the sum
is their sum. -/
theorem scoreFold_fin (s : State) (ant : Ant) (i : ℕ) :
    ∀ (js : List ℕ) (a S : ℚ),
      js.foldl (fun acc j =>
          if isVisited ant.visited j then acc else JsNum.add acc (score hypot s ant i j))
        (JsNum.fin a) = JsNum.fin S →
      ∃ qs : List ℚ, js.map (score hypot s ant i) = qs.map JsNum.fin ∧ a + qs.sum = S
  | [], a, S, h => by
    simp only [List.foldl_nil, JsNum.fin.injEq] at h
    exact ⟨[], rfl, by simp [h]⟩
  | j :: js, a, S, h => by
    rw [List.foldl_cons] at h
    cases hv : isVisited ant.visited j with
    | true =>
      rw [if_pos hv] at h
      obtain ⟨qs, hq, hs⟩ := scoreFold_fin s ant i js a S h
      refine ⟨0 :: qs, ?_, by simp [hs]⟩
      rw [List.map_cons, List.map_cons, hq, score_of_visited hypot s ant i j hv]
    | false =>
      rw [if_neg (by rw [hv]; exact Bool.false_ne_true)] at h
      cases hsc : score hypot s ant i j with
      | fin q =>
        rw [hsc] at h
        obtain ⟨qs, hq, hs⟩ := scoreFold_fin s ant i js (a + q) S h
        refine ⟨q :: qs, ?_, by rw [List.sum_cons, ← add_assoc]; exact hs⟩
        rw [List.map_cons, List.map_cons, hq, hsc]
      | pinf =>
        rw [hsc] at h
        have := scoreFold_not_finite hypot s ant i js
          (JsNum.add (JsNum.fin a) JsNum.pinf) (by simp [JsNum.add, JsNum.Finite])
        rw [h] at this
        exact absurd trivial this
      | ninf =>
        rw [hsc] at h
        have := scoreFold_not_finite hypot s ant i js
          (JsNum.add (JsNum.fin a) JsNum.ninf) (by simp [JsNum.add, JsNum.Finite])
        rw [h] at this
        exact absurd trivial this
      | nan =>
        rw [hsc] at h
        have := scoreFold_not_finite hypot s ant i js
          (JsNum.add (JsNum.fin a) JsNum.nan) (by simp [JsNum.add, JsNum.Finite])
        rw [h] at this
        exact absurd trivial this

theorem probs_fin (s : State) (ant : Ant) (i : ℕ) {S : ℚ}
    (h : scoreSum hypot s ant i = JsNum.fin S) :
    ∃ qs : List ℚ, probs hypot s ant i = qs.map JsNum.fin ∧ qs.sum = S ∧
      qs.length = s.cities.length := by
  obtain ⟨qs, hq, hs⟩ := scoreFold_fin hypot s ant i (List.range s.cities.length) 0 S h
  refine ⟨qs, hq, by rw [← hs, zero_add], ?_⟩
  have := congrArg List.length hq
  simp only [List.length_map, List.length_range] at this
  exact this.symm

theorem cumScore_fin (s : State) (ant : Ant) (i : ℕ) {qs : List ℚ}
    (hq : probs hypot s ant i = qs.map JsNum.fin) {j : ℕ} (hj : j < s.cities.length) :
    cumScore hypot s ant i j = JsNum.fin (qs.take (j + 1)).sum := by
  unfold cumScore
  have e : List.range (j + 1) = (List.range s.cities.length).take (j + 1) := by
    rw [List.take_range, Nat.min_eq_left (by omega)]
  unfold probs at hq
  rw [e, List.map_take, hq, ← List.map_take, sum_map_fin]

/-- The result of `selectNextCity` when the sum of the scores is a finite
positive number and the draw is below 1. -/
theorem selectNextCity_of_pos (s : State) (ant : Ant) (i : ℕ) (rnd : Draws) {S : ℚ}
    (hsum : scoreSum hypot s ant i = JsNum.fin S) (hS : 0 < S) (h1 : rnd 0 < 1) :
    ∃ j, j < s.cities.length ∧ selectNextCity hypot s ant i rnd = (some j, rnd.rest) ∧
      JsNum.le (JsNum.fin (rnd 0 * S)) (cumScore hypot s ant i j) = true ∧
      ∀ j1, j1 < j → JsNum.le (JsNum.fin (rnd 0 * S)) (cumScore hypot s ant i j1) = false := by
  obtain ⟨qs, hq, hs, hlen⟩ := probs_fin hypot s ant i hsum
  have hne : qs ≠ [] := by
    intro hnil
    rw [hnil, List.sum_nil] at hs
    exact absurd hs (ne_of_lt hS)
  have hr : rnd 0 * S < qs.sum := by
    rw [hs]
    nlinarith
  obtain ⟨k, hk, hroul, hge, hmin⟩ := roulette_fin qs 0 (rnd 0 * S) hne hr
  rw [hlen] at hk
  refine ⟨k, hk, ?_, ?_, ?_⟩
  · unfold selectNextCity
    simp only [hsum, JsNum.isZero, JsNum.fin.injEq, ne_of_gt hS, decide_False, JsNum.mul, hq]
    rw [if_neg Bool.false_ne_true, hroul, Nat.zero_add]
  · rw [cumScore_fin hypot s ant i hq hk]
    simp only [JsNum.le, decide_eq_true_eq]
    exact hge
  · intro j1 hj1
    rw [cumScore_fin hypot s ant i hq (by omega)]
    simp only [JsNum.le, decide_eq_false_iff_not, not_le]
    exact hmin j1 hj1

/-- C15. In exact arithmetic, when the sum of the scores is a positive number
`sum` and the draw is below 1, so that `r = Math.random() * sum < sum`,
`selectNextCity` returns a city (never `null`), consuming one draw: the least
index `j` below `n` such that `score[0] + ... + score[j] ≥ r`, where `score[j]`
is the value of `probs[j]`, which is 0 for a visited city. -/
theorem roulette_first_reach (s : State) (ant : Ant) (i : ℕ) (rnd : Draws) (S : ℚ)
    (hsum : scoreSum hypot s ant i = JsNum.fin S) (hS : 0 < S) (h1 : rnd 0 < 1) :
    ∃ j, j < s.cities.length ∧ selectNextCity hypot s ant i rnd = (some j, rnd.rest) ∧
      JsNum.le (JsNum.fin (rnd 0 * S)) (cumScore hypot s ant i j) = true ∧
      ∀ j1, j1 < j → JsNum.le (JsNum.fin (rnd 0 * S)) (cumScore hypot s ant i j1) = false :=
  selectNextCity_of_pos hypot s ant i rnd hsum hS h1

/-- An instance of C15: ant 0 of `startTwo` stands on city 0, which it has
visited; the scores are `0` and `(1/4) * (1 / (5 + 1e-9))^5`, and with the draw
`1/2` the first index whose running total reaches `r` is city 1. -/
theorem roulette_first_reach_witness :
    scoreSum hypotQ startTwo ⟨[0], [true, false], 0⟩ 0
      = JsNum.fin (1 / 4 * (1 / (5 + 1 / 1000000000)) ^ 5) ∧
    (0 : ℚ) < 1 / 4 * (1 / (5 + 1 / 1000000000)) ^ 5 ∧ halfDraws 0 < 1 ∧
    (selectNextCity hypotQ startTwo ⟨[0], [true, false], 0⟩ 0 halfDraws).1 = some 1 ∧
    ∃ j, j < startTwo.cities.length ∧
      selectNextCity hypotQ startTwo ⟨[0], [true, false], 0⟩ 0 halfDraws
        = (some j, halfDraws.rest) := by
  have hsum : scoreSum hypotQ startTwo ⟨[0], [true, false], 0⟩ 0
      = JsNum.fin (1 / 4 * (1 / (5 + 1 / 1000000000)) ^ 5) := by decide!
  have hS : (0 : ℚ) < 1 / 4 * (1 / (5 + 1 / 1000000000)) ^ 5 := by norm_num
  have h1 : halfDraws 0 < 1 := by
    simp only [halfDraws]
    norm_num
  obtain ⟨j, hj, hsel, -, -⟩ :=
    roulette_first_reach hypotQ startTwo ⟨[0], [true, false], 0⟩ 0 halfDraws _ hsum hS h1
  exact ⟨hsum, hS, h1, by decide!, j, hj, hsel⟩

end Roulette

section NoStall

variable (hypot : ℚ → ℚ → ℚ)

/-- The sum of scores that are finite and non-negative, and positive at the
unvisited cities, is finite, and it is positive when a city is unvisited. -/
theorem scoreFold_pos (s : State) (ant : Ant) (i : ℕ) :
    ∀ (js : List ℕ) (a : ℚ),
      (∀ j ∈ js, ∃ q : ℚ, 0 ≤ q ∧ score hypot s ant i j = JsNum.fin q ∧
        (isVisited ant.visited j = false → 0 < q)) →
      ∃ S : ℚ, js.foldl (fun acc j =>
          if isVisited ant.visited j then acc else JsNum.add acc (score hypot s ant i j))
        (JsNum.fin a) = JsNum.fin S ∧ a ≤ S ∧
        ((∃ j ∈ js, isVisited ant.visited j = false) → a < S)
  | [], a, _ => ⟨a, rfl, le_refl _, fun ⟨_, hj, _⟩ => absurd hj (List.not_mem_nil _)⟩
  | j :: js, a, h => by
    obtain ⟨q, hq0, hq, hqpos⟩ := h j (List.mem_cons_self _ _)
    have hrest : ∀ j1 ∈ js, ∃ q : ℚ, 0 ≤ q ∧ score hypot s ant i j1 = JsNum.fin q ∧
        (isVisited ant.visited j1 = false → 0 < q) :=
      fun j1 hj1 => h j1 (List.mem_cons_of_mem _ hj1)
    rw [List.foldl_cons]
    cases hv : isVisited ant.visited j with
    | true =>
      rw [if_pos rfl]
      obtain ⟨S, hS, hle, hlt⟩ := scoreFold_pos s ant i js a hrest
      refine ⟨S, hS, hle, ?_⟩
      rintro ⟨j1, hj1, hv1⟩
      rcases List.mem_cons.mp hj1 with e | hmem
      · rw [e, hv] at hv1
        exact absurd hv1 (by decide)
      · exact hlt ⟨j1, hmem, hv1⟩
    | false =>
      rw [if_neg Bool.false_ne_true, hq]
      obtain ⟨S, hS, hle, -⟩ := scoreFold_pos s ant i js (a + q) hrest
      have hpos := hqpos hv
      exact ⟨S, hS, by linarith, fun _ => by linarith⟩

/-- A path shorter than the number of cities leaves a city unvisited, when
only cities of the path are marked as visited. -/
theorem exists_unvisited {n : ℕ} (ant : Ant) (hlt : ant.path.length < n)
    (hvis : ∀ j, isVisited ant.visited j = true → j ∈ ant.path) :
    ∃ j, j < n ∧ isVisited ant.visited j = false := by
  by_contra hc
  have hall : ∀ j, j < n → j ∈ ant.path := by
    intro j hj
    apply hvis
    by_contra hv
    exact hc ⟨j, hj, by simpa using hv⟩
  have hsub : Finset.range n ⊆ ant.path.toFinset := by
    intro j hj
    exact List.mem_toFinset.mpr (hall j (Finset.mem_range.mp hj))
  have h1 := Finset.card_le_card hsub
  have h2 := List.toFinset_card_le ant.path
  rw [Finset.card_range] at h1
  omega

/-- C19. In exact arithmetic, with a non-negative `Math.hypot`: for an ant
whose path has fewer than `n` cities and whose visited flags are true only at
cities of its path, a current city `i < n` and a pheromone matrix whose entries
are all strictly positive, the sum of the scores is a strictly positive number,
`selectNextCity` does not take the branch `sum === 0` and, with a draw below 1,
returns a city. -/
theorem no_stall_when_positive (hpos : ∀ x y, 0 ≤ hypot x y) (s : State) (ant : Ant)
    (i : ℕ) (rnd : Draws)
    (hlt : ant.path.length < s.cities.length)
    (hvis : ∀ j, isVisited ant.visited j = true → j ∈ ant.path)
    (hi : i < s.cities.length)
    (hph : ∀ a b, a < s.cities.length → b < s.cities.length →
      ∃ t : ℚ, 0 < t ∧ entry s.pheromone a b = JsNum.fin t)
    (h1 : rnd 0 < 1) :
    ∃ S : ℚ, 0 < S ∧ scoreSum hypot s ant i = JsNum.fin S ∧
      JsNum.isZero (scoreSum hypot s ant i) = false ∧
      ∃ j, j < s.cities.length ∧ selectNextCity hypot s ant i rnd = (some j, rnd.rest) := by
  have hscore : ∀ j ∈ List.range s.cities.length, ∃ q : ℚ, 0 ≤ q ∧
      score hypot s ant i j = JsNum.fin q ∧ (isVisited ant.visited j = false → 0 < q) := by
    intro j hj
    have hjn := List.mem_range.mp hj
    cases hv : isVisited ant.visited j with
    | true =>
      exact ⟨0, le_refl _, score_of_visited hypot s ant i j hv,
        fun h => absurd h (by decide)⟩
    | false =>
      obtain ⟨t, ht, he⟩ := hph i j hi hjn
      have hd := distance_nonneg hypot hpos (cityAt s.cities i) (cityAt s.cities j)
      have hp : 0 < distance hypot (cityAt s.cities i) (cityAt s.cities j) + EPS :=
        add_pos_of_nonneg_of_pos hd eps_pos
      have hq : 0 < t ^ ALPHA *
          (1 / (distance hypot (cityAt s.cities i) (cityAt s.cities j) + EPS)) ^ BETA := by
        positivity
      exact ⟨_, le_of_lt hq, score_of_unvisited hypot s ant i j hv he (ne_of_gt hp), fun _ => hq⟩
  obtain ⟨S, hS, -, hSpos⟩ := scoreFold_pos hypot s ant i (List.range s.cities.length) 0 hscore
  obtain ⟨j0, hj0, hv0⟩ := exists_unvisited ant hlt hvis
  have hpos0 : 0 < S := hSpos ⟨j0, List.mem_range.mpr hj0, hv0⟩
  have hsum : scoreSum hypot s ant i = JsNum.fin S := hS
  obtain ⟨j, hj, hsel, -, -⟩ := selectNextCity_of_pos hypot s ant i rnd hsum hpos0 h1
  refine ⟨S, hpos0, hsum, ?_, j, hj, hsel⟩
  rw [hsum]
  simp only [JsNum.isZero, JsNum.fin.injEq, ne_of_gt hpos0, decide_False]

/-- An instance of C19: ant 0 of `startTwo`, standing on city 0 with every
pheromone entry equal to `1/4`, is given a city. -/
theorem no_stall_when_positive_witness :
    ∃ S : ℚ, 0 < S ∧ scoreSum hypotQ startTwo ⟨[0], [true, false], 0⟩ 0 = JsNum.fin S ∧
      ∃ j, j < startTwo.cities.length ∧
        selectNextCity hypotQ startTwo ⟨[0], [true, false], 0⟩ 0 halfDraws
          = (some j, halfDraws.rest) := by
  have hvis : ∀ j, isVisited (Ant.mk [0] [true, false] 0).visited j = true →
      j ∈ (Ant.mk [0] [true, false] 0).path := by
    intro j hj
    match j, hj with
    | 0, _ => exact List.mem_singleton.mpr rfl
    | 1, h => exact absurd h (by decide)
    | j + 2, h => exact absurd h (by simp [isVisited])
  have hph : ∀ a b, a < startTwo.cities.length → b < startTwo.cities.length →
      ∃ t : ℚ, 0 < t ∧ entry startTwo.pheromone a b = JsNum.fin t := by
    intro a b ha hb
    have ha2 : a < 2 := ha
    have hb2 : b < 2 := hb
    refine ⟨1 / 4, by norm_num, ?_⟩
    interval_cases a <;> interval_cases b <;> decide!
  have h1 : halfDraws 0 < 1 := by
    simp only [halfDraws]
    norm_num
  obtain ⟨S, hS, hsum, -, j, hj, hsel⟩ :=
    no_stall_when_positive hypotQ hypotQ_nonneg startTwo ⟨[0], [true, false], 0⟩ 0 halfDraws
      (by decide) hvis (by decide) hph h1
  exact ⟨S, hS, hsum, j, hj, hsel⟩

end NoStall

/-! ## Cursor invariant -/

section Cursor

variable (hypot : ℚ → ℚ → ℚ)

/-- The shape of the population around the cursor `cur`. -/
theorem cursor_shape_set {s : State} {ants : List Ant} {cur : ℕ} (a : Ant)
    (hinv : CursorInv s) (hn : 1 ≤ s.cities.length)
    (ha : (cur = s.currentAntIndex + 1 → a.path.length = s.cities.length) ∧
          (cur = s.currentAntIndex → a.path.length < s.cities.length))
    (hcur : cur = s.currentAntIndex + 1 ∨ cur = s.currentAntIndex)
    (hants : ants = s.ants.set s.currentAntIndex a) (idx : ℕ) (ant : Ant)
    (hget : ants.get? idx = some ant) :
    (idx < cur → ant.path.length = s.cities.length) ∧
    (idx = cur → ant.path.length < s.cities.length) ∧
    (cur < idx → ant.path = []) := by
  rw [hants, List.get?_eq_getElem?, List.getElem?_set] at hget
  by_cases hidx : s.currentAntIndex = idx
  · rw [if_pos hidx] at hget
    split at hget
    · simp only [Option.some.injEq] at hget
      subst hget
      exact ⟨fun h => ha.1 (by omega), fun h => ha.2 (by omega), fun h => absurd h (by omega)⟩
    · exact absurd hget (by simp)
  · rw [if_neg hidx, ← List.get?_eq_getElem?] at hget
    have h := hinv.2 idx ant hget
    refine ⟨fun hlt => h.1 (by omega), fun he => ?_, fun hlt => h.2.2 (by omega)⟩
    have hnil := h.2.2 (by omega)
    rw [hnil]
    exact hn

/-- After parts 1 to 3 of the loop body the population has the shape of the
cursor invariant around the new cursor, which may have passed the last ant. -/
theorem advanceAnt_cursor {B steps : ℕ} {s : State} {rnd : Draws} {s3 : State} {steps3 : ℕ}
    {rnd2 : Draws} (hinv : CursorInv s) (hn : 1 ≤ s.cities.length)
    (h : advanceAnt hypot B steps s rnd = some (s3, steps3, rnd2)) :
    s3.cities = s.cities ∧ s3.ants.length = s.ants.length ∧
    ∀ idx ant, s3.ants.get? idx = some ant →
      (idx < s3.currentAntIndex → ant.path.length = s.cities.length) ∧
      (idx = s3.currentAntIndex → ant.path.length < s.cities.length) ∧
      (s3.currentAntIndex < idx → ant.path = []) := by
  obtain ⟨ant0, hget, h3, -, -⟩ := advanceAnt_some hypot h
  have h0 := (hinv.2 _ ant0 hget).2.1 rfl
  obtain ⟨-, hp2, -⟩ := steppedAnt_progress hypot B steps hn rnd (le_of_lt h0)
  by_cases hdone : (steppedAnt hypot B steps s ant0 rnd).1.path.length = s.cities.length
  · rw [completeTour_of_done hypot hdone] at h3
    refine ⟨by rw [h3], by rw [h3]; simp only [List.length_set], ?_⟩
    intro idx ant hg
    rw [h3] at hg ⊢
    simp only at hg ⊢
    exact cursor_shape_set
      ⟨(steppedAnt hypot B steps s ant0 rnd).1.path,
        (steppedAnt hypot B steps s ant0 rnd).1.visited,
        tourDist hypot s (steppedAnt hypot B steps s ant0 rnd).1⟩
      hinv hn ⟨fun _ => hdone, fun e => absurd e (by omega)⟩ (Or.inl rfl) rfl idx ant hg
  · rw [completeTour_of_not_done hypot hdone] at h3
    refine ⟨by rw [h3], by rw [h3]; simp only [List.length_set], ?_⟩
    intro idx ant hg
    rw [h3] at hg ⊢
    simp only at hg ⊢
    exact cursor_shape_set (steppedAnt hypot B steps s ant0 rnd).1 hinv hn
      ⟨fun e => absurd e (by omega), fun _ => lt_of_le_of_ne hp2 hdone⟩ (Or.inr rfl) rfl
      idx ant hg

/-- When the cursor has passed the last ant after parts 1 to 3, every ant
holds a path of `n` cities. -/
theorem advanceAnt_all_complete {B steps : ℕ} {s : State} {rnd : Draws} {s3 : State}
    {steps3 : ℕ} {rnd2 : Draws} (hinv : CursorInv s) (hn : 1 ≤ s.cities.length)
    (h : advanceAnt hypot B steps s rnd = some (s3, steps3, rnd2))
    (hend : s3.ants.length ≤ s3.currentAntIndex) :
    ∀ ant ∈ s3.ants, ant.path.length = s3.cities.length := by
  obtain ⟨hc, -, hshape⟩ := advanceAnt_cursor hypot hinv hn h
  intro ant hmem
  obtain ⟨idx, hidx, hget⟩ := List.getElem_of_mem hmem
  have hg : s3.ants.get? idx = some ant := by
    rw [List.get?_eq_getElem?, List.getElem?_eq_getElem hidx, hget]
  rw [hc]
  exact (hshape idx ant hg).1 (by omega)

theorem iteration_cursorInv {B steps : ℕ} {s : State} {rnd : Draws} {s1 : State} {steps1 : ℕ}
    {rnd1 : Draws} (hinv : CursorInv s) (hn : 1 ≤ s.cities.length)
    (h : iteration hypot B steps s rnd = some (s1, steps1, rnd1)) : CursorInv s1 := by
  obtain ⟨s3, steps3, hadv, h1, -⟩ := iteration_some hypot h
  obtain ⟨hc, hlen, hshape⟩ := advanceAnt_cursor hypot hinv hn hadv
  by_cases hend : s3.ants.length ≤ s3.currentAntIndex
  · rw [endCycle_of_le hend] at h1
    rw [h1]
    refine ⟨?_, ?_⟩
    · simp only [updatePheromones, List.length_map]
      rw [hlen]
      exact lt_of_le_of_lt (Nat.zero_le _) hinv.1
    · intro idx ant hg
      simp only [updatePheromones, List.get?_eq_getElem?, List.getElem?_map,
        Option.map_eq_some'] at hg ⊢
      obtain ⟨_, _, rfl⟩ := hg
      refine ⟨fun hlt => absurd hlt (by omega), fun _ => ?_, fun _ => rfl⟩
      rw [hc]
      exact hn
  · rw [endCycle_of_lt (not_le.mp hend)] at h1
    rw [h1]
    refine ⟨not_le.mp hend, ?_⟩
    intro idx ant hg
    rw [hc]
    exact hshape idx ant hg

theorem cursorInv_of_reachable {s : State} (h : Reachable hypot s) :
    2 ≤ s.cities.length ∧ CursorInv s := by
  refine reachable_invariant hypot (fun t => 2 ≤ t.cities.length ∧ CursorInv t) ?_ ?_ s h
  · intro s0 h0
    rw [startClick_eq h0]
    refine ⟨h0, ?_, ?_⟩
    · show 0 < (List.replicate (max 20 (s0.cities.length * 20)) (Ant.mk [] [] 0)).length
      rw [List.length_replicate]
      exact lt_of_lt_of_le (by decide) (le_max_left _ _)
    · intro idx ant hg
      have hmem : ant ∈ List.replicate (max 20 (s0.cities.length * 20)) (Ant.mk [] [] 0) :=
        List.get?_mem hg
      rw [List.eq_of_mem_replicate hmem]
      refine ⟨fun hlt => absurd hlt (Nat.not_lt_zero _), fun _ => ?_, fun _ => rfl⟩
      show 0 < s0.cities.length
      omega
  · intro B steps s rnd s1 steps1 rnd1 _ hP hit
    exact ⟨by rw [(iteration_fields hypot hit).1]; exact hP.1,
      iteration_cursorInv hypot hP.2 (by omega) hit⟩

/-- C18. At every invocation boundary of a run on `n ≥ 2` cities:
`currentAntIndex < ants.length`, every ant below the cursor has a path of `n`
cities, the ant under the cursor has a path of fewer than `n` cities and every
ant above the cursor has an empty path; and whenever a loop iteration reaches
`updatePheromones` (the cursor has passed the last ant), every ant holds a path
of `n` cities. -/
theorem cursor_invariant (s : State) (hr : Reachable hypot s) :
    (s.currentAntIndex < s.ants.length ∧
      ∀ idx ant, s.ants.get? idx = some ant →
        (idx < s.currentAntIndex → ant.path.length = s.cities.length) ∧
        (idx = s.currentAntIndex → ant.path.length < s.cities.length) ∧
        (s.currentAntIndex < idx → ant.path = [])) ∧
    (∀ (B steps : ℕ) (rnd : Draws) (s3 : State) (steps3 : ℕ) (rnd2 : Draws),
      advanceAnt hypot B steps s rnd = some (s3, steps3, rnd2) →
      s3.ants.length ≤ s3.currentAntIndex →
      ∀ ant ∈ s3.ants, ant.path.length = s3.cities.length) := by
  obtain ⟨hn, hinv⟩ := cursorInv_of_reachable hypot hr
  exact ⟨hinv, fun B steps rnd s3 steps3 rnd2 hadv hend =>
    advanceAnt_all_complete hypot hinv (by omega) hadv hend⟩

/-- An instance of C18: after the first frame on `twoCities` the cursor is on
ant 1, ant 0 holds two cities and ants 1 and 2 hold none. -/
theorem cursor_invariant_witness :
    ∃ s : State, Reachable hypotQ s ∧ s.currentAntIndex = 1 ∧ 1 < s.ants.length ∧
      (∀ ant, s.ants.get? 0 = some ant → ant.path.length = s.cities.length) ∧
      (∀ ant, s.ants.get? 1 = some ant → ant.path.length < s.cities.length) ∧
      (∀ ant, s.ants.get? 2 = some ant → ant.path = []) := by
  obtain ⟨s1, hf, hp⟩ := frames_check hypotQ
    (fun s => decide (s.currentAntIndex = 1))
    (show (frames hypotQ MAX_STEPS_PER_FRAME halfDraws 1 startTwo).map _ = some true by decide!)
  have hreach : Reachable hypotQ s1 :=
    reachable_frames hypotQ validDraws_halfDraws 1 _ s1 (Reachable.init _ (by decide)) hf
  have hcur : s1.currentAntIndex = 1 := of_decide_eq_true hp
  have h := (cursor_invariant hypotQ s1 hreach).1
  refine ⟨s1, hreach, hcur, by rw [← hcur]; exact h.1, ?_, ?_, ?_⟩
  · intro ant hg
    exact (h.2 0 ant hg).1 (by omega)
  · intro ant hg
    exact (h.2 1 ant hg).2.1 hcur.symm
  · intro ant hg
    exact (h.2 2 ant hg).2.2 (by omega)

end Cursor

/-! ## Index safety -/

section Indices

variable (hypot : ℚ → ℚ → ℚ)

/-- The start city `Math.floor(Math.random() * n)` is a city index. -/
theorem start_city_lt {r : ℚ} {n : ℕ} (h0 : 0 ≤ r) (h1 : r < 1) (hn : 1 ≤ n) :
    (r * n).floor.toNat < n := by
  have hnq : (0 : ℚ) < n := by exact_mod_cast hn
  have hlo : (0 : ℤ) ≤ (r * n).floor := by
    rw [Rat.le_floor]
    simp only [Int.cast_zero]
    positivity
  have hhi : (r * n).floor < (n : ℤ) := by
    by_contra hc
    have : ((n : ℤ) : ℚ) ≤ r * n := Rat.le_floor.mp (not_lt.mp hc)
    simp only [Int.cast_natCast] at this
    nlinarith
  omega

theorem roulette_lt : ∀ (ps : List JsNum) (j0 : ℕ) (r : JsNum) (j : ℕ),
    roulette ps j0 r = some j → j < j0 + ps.length
  | [], _, _, _, h => by simp [roulette] at h
  | p :: ps, j0, r, j, h => by
    simp only [roulette] at h
    split at h
    · simp only [Option.some.injEq] at h
      simp only [List.length_cons]
      omega
    · have := roulette_lt ps (j0 + 1) _ j h
      simp only [List.length_cons]
      omega

/-- A city returned by `selectNextCity` is a city index. -/
theorem selectNextCity_lt (s : State) (ant : Ant) (i : ℕ) (rnd : Draws) (j : ℕ)
    (h : (selectNextCity hypot s ant i rnd).1 = some j) : j < s.cities.length := by
  unfold selectNextCity at h
  simp only at h
  split at h
  · exact absurd h (by simp)
  · have := roulette_lt _ _ _ j h
    simpa [probs] using this

theorem steppedAnt_inRange (B steps : ℕ) (s : State) (hn : 1 ≤ s.cities.length) (ant0 : Ant)
    {rnd : Draws} (hv : ValidDraws rnd) (h : ∀ c ∈ ant0.path, c < s.cities.length) :
    ∀ c ∈ (steppedAnt hypot B steps s ant0 rnd).1.path, c < s.cities.length := by
  have h1 : ∀ c ∈ (initAnt s.cities.length ant0 rnd).1.path, c < s.cities.length := by
    rcases initAnt_path s.cities.length ant0 rnd with e | ⟨-, e⟩
    · rw [e]; exact h
    · rw [e]
      intro c hc
      rw [List.mem_singleton.mp hc]
      exact start_city_lt (hv 0).1 (hv 0).2 hn
  unfold steppedAnt
  rcases takeStep_path hypot B steps s (initAnt s.cities.length ant0 rnd).1
    (initAnt s.cities.length ant0 rnd).2 with e | ⟨next, hsel, e⟩
  · rw [e]; exact h1
  · rw [e]
    intro c hc
    rcases List.mem_append.mp hc with hm | hm
    · exact h1 c hm
    · rw [List.mem_singleton.mp hm]
      exact selectNextCity_lt hypot s _ _ _ next hsel

theorem advanceAnt_inRange {B steps : ℕ} {s : State} {rnd : Draws} {s3 : State} {steps3 : ℕ}
    {rnd2 : Draws} (hn : 1 ≤ s.cities.length) (hv : ValidDraws rnd) (hp : PathsInRange s)
    (h : advanceAnt hypot B steps s rnd = some (s3, steps3, rnd2)) :
    ∀ ant ∈ s3.ants, ∀ c ∈ ant.path, c < s.cities.length := by
  obtain ⟨ant0, ant2, hget, hants, hpath⟩ := advanceAnt_ants hypot h
  intro ant hmem c hc
  rw [hants] at hmem
  rcases List.mem_or_eq_of_mem_set hmem with hm | he
  · exact hp ant hm c hc
  · rw [he, hpath] at hc
    exact steppedAnt_inRange hypot B steps s hn ant0 hv (hp ant0 (List.get?_mem hget)) c hc

theorem iteration_inRange {B steps : ℕ} {s : State} {rnd : Draws} {s1 : State} {steps1 : ℕ}
    {rnd1 : Draws} (hn : 1 ≤ s.cities.length) (hv : ValidDraws rnd) (hp : PathsInRange s)
    (h : iteration hypot B steps s rnd = some (s1, steps1, rnd1)) : PathsInRange s1 := by
  obtain ⟨s3, steps3, hadv, h1, -⟩ := iteration_some hypot h
  have h3 := advanceAnt_inRange hypot hn hv hp hadv
  have hc := (iteration_fields hypot h).1
  intro ant hmem c hcm
  rw [hc]
  by_cases hend : s3.ants.length ≤ s3.currentAntIndex
  · rw [endCycle_of_le hend] at h1
    rw [h1] at hmem
    simp only [updatePheromones, List.mem_map] at hmem
    obtain ⟨_, _, rfl⟩ := hmem
    exact absurd hcm (List.not_mem_nil _)
  · rw [endCycle_of_lt (not_le.mp hend)] at h1
    rw [h1] at hmem
    exact h3 ant hmem c hcm

theorem inRange_of_reachable {s : State} (h : Reachable hypot s) :
    2 ≤ s.cities.length ∧ PathsInRange s := by
  refine reachable_invariant hypot (fun t => 2 ≤ t.cities.length ∧ PathsInRange t) ?_ ?_ s h
  · intro s0 h0
    rw [startClick_eq h0]
    refine ⟨h0, ?_⟩
    intro ant hmem c hc
    have hm : ant ∈ List.replicate (max 20 (s0.cities.length * 20)) (Ant.mk [] [] 0) := hmem
    rw [List.eq_of_mem_replicate hm] at hc
    exact absurd hc (List.not_mem_nil _)
  · intro B steps s rnd s1 steps1 rnd1 hv hP hit
    exact ⟨by rw [(iteration_fields hypot hit).1]; exact hP.1,
      iteration_inRange hypot (by omega) hv hP.2 hit⟩

/-- A loop iteration started in a reachable state, with draws in `[0, 1)`,
ends in a reachable state: it is a frame with budget 1. -/
theorem reachable_iteration {B steps : ℕ} {s : State} {rnd : Draws} {s1 : State} {steps1 : ℕ}
    {rnd1 : Draws} (hr : Reachable hypot s) (hv : ValidDraws rnd)
    (h : iteration hypot B steps s rnd = some (s1, steps1, rnd1)) : Reachable hypot s1 :=
  Reachable.frame s s1 1 rnd rnd1 hr hv
    (runACO_one hypot (ready_of_reachable hypot hr) (running_of_reachable hypot hr) h)

/-- C20. In every state reachable under draws in `[0, 1)`: every element of
every path is a city index below `n` (the start city `floor(random * n)` and
every city returned by `selectNextCity` are), `ants[currentAntIndex]` is
defined, the pheromone matrix is `n × n`, and this holds again at the start of
the next loop iteration, whose state is reachable too; after parts 1 to 3 of a
loop iteration the paths are still within `0..n-1`, and when the cursor has
passed the last ant, so that `updatePheromones` runs, every index
`(k + 1) % n` with `k < path.length` is below `path.length`. -/
theorem index_safety (s : State) (hr : Reachable hypot s) :
    (∀ ant ∈ s.ants, ∀ c ∈ ant.path, c < s.cities.length) ∧
    (∃ ant0, s.ants.get? s.currentAntIndex = some ant0) ∧
    (s.pheromone.length = s.cities.length ∧
      ∀ row ∈ s.pheromone, row.length = s.cities.length) ∧
    (∀ rnd : Draws, ValidDraws rnd →
      ((rnd 0) * s.cities.length).floor.toNat < s.cities.length) ∧
    (∀ (ant : Ant) (i : ℕ) (rnd : Draws) (j : ℕ),
      (selectNextCity hypot s ant i rnd).1 = some j → j < s.cities.length) ∧
    (∀ (B steps : ℕ) (rnd : Draws), ValidDraws rnd →
      ∀ (s1 : State) (steps1 : ℕ) (rnd1 : Draws),
        iteration hypot B steps s rnd = some (s1, steps1, rnd1) → Reachable hypot s1) ∧
    (∀ (B steps : ℕ) (rnd : Draws), ValidDraws rnd →
      ∀ (s3 : State) (steps3 : ℕ) (rnd2 : Draws),
        advanceAnt hypot B steps s rnd = some (s3, steps3, rnd2) →
        (∀ ant ∈ s3.ants, ∀ c ∈ ant.path, c < s3.cities.length) ∧
        (s3.ants.length ≤ s3.currentAntIndex →
          ∀ ant ∈ s3.ants, ∀ k, k < ant.path.length →
            (k + 1) % s3.cities.length < ant.path.length)) := by
  obtain ⟨hn, hp⟩ := inRange_of_reachable hypot hr
  obtain ⟨-, hinv⟩ := cursorInv_of_reachable hypot hr
  obtain ⟨ant0, hget, -⟩ := get?_of_ready (ready_of_reachable hypot hr)
  refine ⟨hp, ⟨ant0, hget⟩, (goodMatrix_of_reachable hypot hr).1,
    fun rnd hv => start_city_lt (hv 0).1 (hv 0).2 (by omega),
    fun ant i rnd j h => selectNextCity_lt hypot s ant i rnd j h,
    fun B steps rnd hv s1 steps1 rnd1 hit => reachable_iteration hypot hr hv hit, ?_⟩
  intro B steps rnd hv s3 steps3 rnd2 hadv
  have hc := (advanceAnt_cursor hypot hinv (by omega) hadv).1
  refine ⟨?_, ?_⟩
  · rw [hc]
    exact advanceAnt_inRange hypot (by omega) hv hp hadv
  · intro hend ant hmem k _
    rw [advanceAnt_all_complete hypot hinv (by omega) hadv hend ant hmem]
    exact Nat.mod_lt _ (by rw [hc]; omega)

/-- An instance of C20: after the first frame on `twoCities` the path of ant 0
is `[1, 0]`, within `0..1`, and the cursor is on an ant. -/
theorem index_safety_witness :
    ∃ s : State, Reachable hypotQ s ∧
      (∃ ant, s.ants.get? 0 = some ant ∧ ant.path = [1, 0] ∧ ∀ c ∈ ant.path, c < 2) ∧
      ∃ ant0, s.ants.get? s.currentAntIndex = some ant0 := by
  obtain ⟨s1, hf, hp⟩ := frames_check hypotQ
    (fun s => decide (s.cities.length = 2 ∧
      (s.ants.get? 0).map (fun a => a.path) = some [1, 0]))
    (show (frames hypotQ MAX_STEPS_PER_FRAME halfDraws 1 startTwo).map _ = some true by decide!)
  have hreach : Reachable hypotQ s1 :=
    reachable_frames hypotQ validDraws_halfDraws 1 _ s1 (Reachable.init _ (by decide)) hf
  obtain ⟨hn, hant⟩ := of_decide_eq_true hp
  obtain ⟨ant, hget, hpath⟩ := Option.map_eq_some'.mp hant
  have h := index_safety hypotQ s1 hreach
  refine ⟨s1, hreach, ⟨ant, hget, hpath, ?_⟩, h.2.1⟩
  intro c hc
  have := h.1 ant (List.get?_mem hget) c hc
  omega

end Indices

/-! ## A cycle of tours with a repeated city -/

/-- C1 (the claim as it is written fails). `repeatTours` has `n = 3 ≥ 2`
cities and every ant holds a path of length `n`, yet `updatePheromones` stores
`7/90 + 2000` in `τ[0][0]` where the sum over the positions whose edge is
`(0, 0)` gives `7/90 + 1000`: each ant's edge `(0, 0)` is added twice.  The
matrix so obtained is the one of a reachable state: the one after 60 frames
from the start on `threeCities`, every frame reading the draws `0, 0, 1/2`. -/
theorem updatePheromones_entry_self_edge :
    (2 ≤ repeatTours.cities.length ∧
      ∀ ant ∈ repeatTours.ants, ant.path.length = repeatTours.cities.length) ∧
    entry (updatePheromones repeatTours).pheromone 0 0 = JsNum.fin (7 / 90 + 2000) ∧
    JsNum.mul (JsNum.fin (1 - RHO)) (entry repeatTours.pheromone 0 0)
        + totalDeposit repeatTours.cities.length repeatTours.ants 0 0
      = JsNum.fin (7 / 90 + 1000) ∧
    entry (updatePheromones repeatTours).pheromone 0 0 ≠
      JsNum.mul (JsNum.fin (1 - RHO)) (entry repeatTours.pheromone 0 0)
        + totalDeposit repeatTours.cities.length repeatTours.ants 0 0 ∧
    ∃ s : State, Reachable hypotQ s ∧
      s.pheromone = (updatePheromones repeatTours).pheromone := by
  have hlen : ∀ ant ∈ repeatTours.ants, ant.path.length = repeatTours.cities.length := by
    intro ant hant
    rw [List.eq_of_mem_replicate (show ant ∈ List.replicate 60 _ from hant)]
    rfl
  refine ⟨⟨by decide, hlen⟩, by decide!, by decide!, by decide!, ?_⟩
  obtain ⟨s1, hf, hp⟩ := frames_check hypotQ
    (fun s => decide (s.pheromone = (updatePheromones repeatTours).pheromone))
    (show (frames hypotQ MAX_STEPS_PER_FRAME repeatDraws 60 startThree).map _ = some true
      by decide!)
  have hv : ValidDraws repeatDraws := by
    intro k
    unfold repeatDraws
    split <;> norm_num
  exact ⟨s1, reachable_frames hypotQ hv 60 _ s1 (Reachable.init _ (by decide)) hf,
    of_decide_eq_true hp⟩

end ACO
